import Mathlib

/-!
Verification of the screenshot plan engine, review/approval pipeline and
regeneration coalescer of the App-Store-Connect-CLI repository.

The Go sources are shallowly embedded: pure string/slice manipulation becomes
Lean functions over `String`/`List`, the external automation backend becomes
an explicit oracle parameter, and wall-clock time in the polling loop becomes
a logical millisecond counter.  Character-level approximations (documented at
each definition) are: `Char.isWhitespace` for `unicode.IsSpace` and
`Char.isAlpha` for `unicode.IsLetter`; both agree with Go on ASCII input.
-/

namespace ASCShots

/-- Whitespace predicate modelling Go `unicode.IsSpace` (exact on ASCII). -/
def goIsSpace (c : Char) : Bool := c.isWhitespace

/-- Letter predicate modelling Go `unicode.IsLetter` (exact on ASCII). -/
def goIsLetter (c : Char) : Bool := c.isAlpha

/-- Drops leading and trailing whitespace characters from a character list;
the character-list core of Go `strings.TrimSpace`. -/
def trimChars (l : List Char) : List Char :=
  ((l.dropWhile goIsSpace).reverse.dropWhile goIsSpace).reverse

/-- Models Go `strings.TrimSpace`. -/
def goTrim (s : String) : String := String.mk (trimChars s.data)

/-- Models Go `strings.ToLower` (exact on ASCII). -/
def goToLower (s : String) : String := String.mk (s.data.map Char.toLower)

/-- Models Go `strings.EqualFold`: case-insensitive equality (simple folding,
exact on ASCII). -/
def goEqualFold (a b : String) : Bool := goToLower a == goToLower b

/-- Splits a character list on a separator character; the character-list core
of Go `strings.Split` for the single-character separators used here. -/
def splitOnChar (sep : Char) : List Char → List (List Char)
  | [] => [[]]
  | c :: rest =>
    match splitOnChar sep rest with
    | [] => [[]]
    | h :: t => if c = sep then [] :: h :: t else (c :: h) :: t

/-- Models Go `strings.Split` with a single-character separator. -/
def goSplit (s : String) (sep : Char) : List String :=
  (splitOnChar sep s.data).map String.mk

/-- Models Go `strings.ReplaceAll(token, "_", "-")`. -/
def replaceUnderscores (s : String) : String :=
  String.mk (s.data.map fun c => if c = '_' then '-' else c)

/-- Models Go `strings.Contains`: `sub` occurs as a contiguous substring. -/
def goContains (s sub : String) : Bool := decide (sub.data <:+: s.data)

/-- Models `looksLikeLocale`'s per-group check from review.go: the group is
non-empty, its byte length is within `[2, 3]` for the first group and `[2, 8]`
afterwards (Go `len` counts bytes), and every rune is a letter. -/
def localePartOK (index : Nat) (part : String) : Bool :=
  if part == "" then false
  else
    let maxLen := if index > 0 then 8 else 3
    if part.utf8ByteSize < 2 || part.utf8ByteSize > maxLen then false
    else part.data.all goIsLetter

/-- Models `looksLikeLocale` from review.go: BCP-47-like shape test over
hyphen/underscore-separated groups. -/
def looksLikeLocale (token : String) : Bool :=
  let clean := goTrim (replaceUnderscores token)
  if clean == "" then false
  else
    let parts := goSplit clean '-'
    if parts.length > 3 then false
    else parts.enum.all fun p => localePartOK p.1 p.2

/-- Models `inferLocaleAndDevice` from review.go.  `filepath.ToSlash` is the
identity on the slash-separated relative paths this repository produces, so
the split is taken directly on `/`. -/
def inferLocaleAndDevice (relPath : String) : String × String :=
  match goSplit relPath '/' with
  | a :: b :: _ :: _ => (a, b)
  | [a, _] => if looksLikeLocale a then (a, "") else ("", a)
  | _ => ("", "")

/-! ### Approval ledger (review.go: loadApprovals / SaveApprovals) -/

/-- A successfully decoded approvals file, one constructor per accepted legacy
encoding tried by `loadApprovals`: object-of-booleans, array-of-keys, and the
canonical wrapper object. -/
inductive ApprovalsDoc where
  | mapFormat (entries : List (String × Bool))
  | listFormat (keys : List String)
  | wrappedFormat (approved : List String)
deriving DecidableEq

/-- Models `loadApprovals` from review.go as the set of approved keys it
builds: map-format entries with value `true` are inserted trimmed (with no
emptiness check), while the array and wrapper formats insert trimmed keys only
when non-empty. -/
def loadApprovals : ApprovalsDoc → Finset String
  | .mapFormat entries =>
      ((entries.filter fun p => p.2).map fun p => goTrim p.1).toFinset
  | .listFormat keys =>
      ((keys.map goTrim).filter fun k => k ≠ "").toFinset
  | .wrappedFormat approved =>
      ((approved.map goTrim).filter fun k => k ≠ "").toFinset

/-- Models `SaveApprovals` from review.go: the sorted list of trimmed,
non-empty approved keys that is written as the canonical
wrapper-object payload. -/
def SaveApprovals (approvals : Finset String) : List String :=
  ((approvals.image goTrim).erase "").sort (· ≤ ·)

/-- Saving an approvals set and re-loading the written canonical file. -/
def approvalsRoundTrip (approvals : Finset String) : Finset String :=
  loadApprovals (.wrappedFormat (SaveApprovals approvals))

/-! ### Review status and summary (review.go) -/

/-- Models `deriveReviewStatus` from review.go. -/
def deriveReviewStatus (hasRaw : Bool) (hasValidSize : Bool) : String :=
  if hasRaw && hasValidSize then "ready"
  else if !hasRaw && hasValidSize then "missing_raw"
  else if hasRaw && !hasValidSize then "invalid_size"
  else "missing_raw_invalid_size"

/-- The status/approval fields of one review entry, the projection of
`ReviewEntry` that `summarizeReviewEntries` reads. -/
structure ReviewEntryStat where
  status : String
  approved : Bool
deriving DecidableEq

/-- Models `ReviewSummary` from review.go. -/
structure ReviewSummary where
  total : Nat
  ready : Nat
  missingRaw : Nat
  invalidSize : Nat
  approvedCount : Nat
  pendingApproval : Nat
deriving DecidableEq

/-- One iteration of the `summarizeReviewEntries` loop. -/
def summarizeStep (acc : ReviewSummary) (e : ReviewEntryStat) : ReviewSummary :=
  { acc with
    ready := acc.ready + (if e.status == "ready" then 1 else 0)
    missingRaw := acc.missingRaw + (if goContains e.status "missing_raw" then 1 else 0)
    invalidSize := acc.invalidSize + (if goContains e.status "invalid_size" then 1 else 0)
    approvedCount := acc.approvedCount + (if e.approved then 1 else 0)
    pendingApproval := acc.pendingApproval + (if e.approved then 0 else 1) }

/-- Models `summarizeReviewEntries` from review.go. -/
def summarizeReviewEntries (entries : List ReviewEntryStat) : ReviewSummary :=
  entries.foldl summarizeStep
    { total := entries.length, ready := 0, missingRaw := 0, invalidSize := 0
      approvedCount := 0, pendingApproval := 0 }

/-- Models the entry construction of `buildReviewEntries` when the raw
directory is unavailable and the ledger is empty: every framed file (given by
its size-validity flag) gets status `deriveReviewStatus false valid` and no
approval. -/
def buildEntriesNoRaw (valids : List Bool) : List ReviewEntryStat :=
  valids.map fun valid => ⟨deriveReviewStatus false valid, false⟩

/-- Models `makeReviewKey` from review.go. -/
def makeReviewKey (locale device screenshotID : String) : String :=
  goTrim locale ++ "|" ++ goTrim device ++ "|" ++ goTrim screenshotID

/-! ### Raw lookup for one framed entry (review.go: buildReviewEntries) -/

/-- Models the raw-path resolution of `buildReviewEntries` for one framed
entry: `reviewHit` is the raw index value under the specific review key (`""`
on a miss, as a Go map yields), `candidate` the value under the bare
screenshot id, and `candidateRel` the candidate's path relative to the raw
directory from which its own locale/device are inferred. -/
def resolveRawPath (locale device reviewHit candidate candidateRel : String) : String :=
  if reviewHit != "" then reviewHit
  else if candidate == "" then ""
  else if locale == "" && device == "" then candidate
  else
    let inferred := inferLocaleAndDevice candidateRel
    let candidateIsGeneric := inferred.1 == "" && inferred.2 == ""
    if candidateIsGeneric ||
        ((locale == "" || locale == inferred.1) && (device == "" || device == inferred.2)) then
      candidate
    else ""

/-! ### Raw index construction (review.go: buildRawIndex) -/

/-- One raw screenshot file: its (absolute) path and its path relative to the
raw directory (the output of `filepath.Rel`, a path-library collaborator). -/
structure RawFile where
  path : String
  rel : String
deriving DecidableEq

/-- Models Go `filepath.Base` for the forward-slash paths used here: the
final path segment. -/
def goBase (p : String) : String := (goSplit p '/').getLastD ""

/-- Models `strings.TrimSuffix(filepath.Base(path), filepath.Ext(path))`: the
file name with its extension (the suffix from the final dot) removed. -/
def stemOf (name : String) : String :=
  let rev := name.data.reverse
  if rev.contains '.' then String.mk (((rev.dropWhile fun c => c != '.').drop 1).reverse)
  else name

/-- The screenshot id a raw file contributes to the index. -/
def rawFileID (f : RawFile) : String := stemOf (goBase f.path)

/-- Models `rawIndexScreenshotKey` from review.go. -/
def rawIndexScreenshotKey (screenshotID : String) : String := "id|" ++ goTrim screenshotID

/-- Models `rawIndexReviewKey` from review.go. -/
def rawIndexReviewKey (locale device screenshotID : String) : String :=
  "review|" ++ makeReviewKey locale device screenshotID

/-- The review key under which a raw file is indexed. -/
def rawFileReviewKey (f : RawFile) : String :=
  rawIndexReviewKey (inferLocaleAndDevice f.rel).1 (inferLocaleAndDevice f.rel).2 (rawFileID f)

/-- Pointwise update of a string-keyed partial map. -/
def mapUpd (m : String → Option String) (k : String) (v : Option String) :
    String → Option String :=
  fun x => if x = k then v else m x

/-- The bare-id half of the `buildRawIndex` loop body: insertion with
ambiguity eviction over the index map and the ambiguous-id set. -/
def idStep (st : (String → Option String) × (String → Bool)) (f : RawFile) :
    (String → Option String) × (String → Bool) :=
  let idKey := rawIndexScreenshotKey (rawFileID f)
  if st.2 idKey then (mapUpd st.1 idKey none, st.2)
  else
    match st.1 idKey with
    | none => (mapUpd st.1 idKey (some f.path), st.2)
    | some existing =>
        if existing ≠ f.path then
          (mapUpd st.1 idKey none, fun x => if x = idKey then true else st.2 x)
        else (st.1, st.2)

/-- The review-key half of the `buildRawIndex` loop body: first-wins
insertion under the file's review key. -/
def reviewOnlyStep (m : String → Option String) (f : RawFile) : String → Option String :=
  match m (rawFileReviewKey f) with
  | some _ => m
  | none => mapUpd m (rawFileReviewKey f) (some f.path)

/-- The loop body of `buildRawIndex` for one raw file: the bare-id insertion
with ambiguity eviction, then the first-wins review-key insertion. -/
def rawIndexStep (st : (String → Option String) × (String → Bool)) (f : RawFile) :
    (String → Option String) × (String → Bool) :=
  (reviewOnlyStep (idStep st f).1 f, (idStep st f).2)

/-- Models `buildRawIndex` from review.go over an already-collected list of
raw files, returning the lookup map. -/
def buildRawIndex (files : List RawFile) : String → Option String :=
  (files.foldl rawIndexStep (fun _ => none, fun _ => false)).1

/-- The raw index restricted to review keys, built with no bare-id map at
all. -/
def buildReviewOnlyIndex (files : List RawFile) : String → Option String :=
  files.foldl reviewOnlyStep (fun _ => none)

/-! ### Plan engine (run.go: RunPlan) -/

/-- The step fields of a plan step used by the engine; optional Go pointer
fields become `Option`, with `stringValue`/`intValue` mapping `none` to the
zero value. -/
structure PlanStep where
  action : String
  id : Option String := none
  label : Option String := none
  containsText : Option String := none
  timeoutMS : Option Int := none
  pollIntervalMS : Option Int := none
deriving DecidableEq

/-- Models `stringValue` from run.go. -/
def stringValue (value : Option String) : String := value.getD ""

/-- Models `intValue` from run.go. -/
def intValue (value : Option Int) : Int := value.getD 0

/-- Models the action normalisation of the `RunPlan` loop:
`strings.TrimSpace(strings.ToLower(action))`. -/
def normAction (action : String) : String := goTrim (goToLower action)

/-- Models `RunStepResult` from run.go.  The wall-clock `DurationMS` field is
timing telemetry and is not modelled. -/
structure RunStepResult where
  index : Nat
  action : String
  status : String
  error : String
deriving DecidableEq

/-- The wrapped plan-level error produced when a step handler fails. -/
def stepWrapError (index : Nat) (action cause : String) : String :=
  "step " ++ toString index ++ " (" ++ action ++ "): " ++ cause

/-- Models the step loop of `RunPlan` from run.go: `handler i step` stands
for the `runStep` dispatch of the step at 0-based position `i` (its outcome is
decided by the external automation backend).  On a handler failure the step
result is recorded with status `error` and the loop stops with the wrapped
error; on success an `ok` result is recorded and the loop continues.  The
post-action delay cannot fail in an uncancelled context and is a no-op
here. -/
def runPlanAux (handler : Nat → PlanStep → Except String Unit) :
    Nat → List PlanStep → List RunStepResult × Option String
  | _, [] => ([], none)
  | i, step :: rest =>
    let action := normAction step.action
    match handler i step with
    | .error e =>
        ([⟨i + 1, action, "error", e⟩], some (stepWrapError (i + 1) action e))
    | .ok _ =>
        let r := runPlanAux handler (i + 1) rest
        (⟨i + 1, action, "ok", ""⟩ :: r.1, r.2)

/-- `RunPlan`'s step results and final error over a validated plan's steps. -/
def runPlanSteps (handler : Nat → PlanStep → Except String Unit)
    (steps : List PlanStep) : List RunStepResult × Option String :=
  runPlanAux handler 0 steps

/-- The 0-based positions whose steps are dispatched to a handler during the
`RunPlan` loop: every position before the first failure, and the failing one
itself. -/
def runPlanDispatchedAux (handler : Nat → PlanStep → Except String Unit) :
    Nat → List PlanStep → List Nat
  | _, [] => []
  | i, step :: rest =>
    match handler i step with
    | .error _ => [i]
    | .ok _ => i :: runPlanDispatchedAux handler (i + 1) rest

/-- The dispatched positions of a full run. -/
def runPlanDispatched (handler : Nat → PlanStep → Except String Unit)
    (steps : List PlanStep) : List Nat :=
  runPlanDispatchedAux handler 0 steps

/-! ### Accessibility tree matcher (run.go: nodeMatches / axeMatchesTarget) -/

/-- A decoded JSON document as Go `encoding/json` produces into `any`:
objects, arrays, strings, numbers, booleans, and null. -/
inductive JValue where
  | null
  | bool (b : Bool)
  | num (n : Int)
  | str (s : String)
  | arr (items : List JValue)
  | obj (fields : List (String × JValue))

/-- Models `toString` from run.go: `nil` renders as `""`, strings as
themselves, other scalars via their `%v` rendering.  The `%v` rendering of
composite values is a formatting collaborator and is not modelled. -/
def jsonToString : JValue → String
  | .null => ""
  | .str s => s
  | .bool b => if b then "true" else "false"
  | .num n => toString n
  | .arr _ => ""
  | .obj _ => ""

/-- A field lookup on a decoded JSON object followed by `toString`; a missing
key is `nil` and renders as `""`. -/
def fieldString (fields : List (String × JValue)) (key : String) : String :=
  match fields.lookup key with
  | none => ""
  | some v => jsonToString v

/-- The per-node match test of `nodeMatches` from run.go, on a map node's
fields. -/
def localNodeMatch (targetID targetLabel targetContains : String)
    (fields : List (String × JValue)) : Bool :=
  let id := fieldString fields "AXUniqueId"
  let label := fieldString fields "AXLabel"
  let value := fieldString fields "AXValue"
  (targetID != "" && goEqualFold id targetID)
  || (targetLabel != "" && goEqualFold label targetLabel)
  || (targetContains != ""
      && (goContains (goToLower label) targetContains
          || goContains (goToLower value) targetContains))

mutual

/-- Models `nodeMatches` from run.go: a map node matches locally or through
one of its values; an array matches through one of its items; scalars never
match. -/
def nodeMatches (targetID targetLabel targetContains : String) : JValue → Bool
  | .obj fields =>
      localNodeMatch targetID targetLabel targetContains fields
      || nodeMatchesFields targetID targetLabel targetContains fields
  | .arr items => nodeMatchesItems targetID targetLabel targetContains items
  | _ => false

/-- Recursion of `nodeMatches` over a map node's values. -/
def nodeMatchesFields (targetID targetLabel targetContains : String) :
    List (String × JValue) → Bool
  | [] => false
  | (_, v) :: rest =>
      nodeMatches targetID targetLabel targetContains v
      || nodeMatchesFields targetID targetLabel targetContains rest

/-- Recursion of `nodeMatches` over an array's items. -/
def nodeMatchesItems (targetID targetLabel targetContains : String) :
    List JValue → Bool
  | [] => false
  | v :: rest =>
      nodeMatches targetID targetLabel targetContains v
      || nodeMatchesItems targetID targetLabel targetContains rest

end

/-- The target preparation of `axeMatchesTarget` from run.go applied to a
parsed tree: the id and label are trimmed, the contains text is trimmed and
lowered. -/
def axeTreeMatches (step : PlanStep) (root : JValue) : Bool :=
  nodeMatches (goTrim (stringValue step.id)) (goTrim (stringValue step.label))
    (goToLower (goTrim (stringValue step.containsText))) root

/-- The nodes of a decoded JSON tree: a map node's field list occurs in the
tree if it is the root map or sits under some object value or array item, at
any depth. -/
inductive OccursIn : List (String × JValue) → JValue → Prop
  | self (fields : List (String × JValue)) : OccursIn fields (.obj fields)
  | inField {n : List (String × JValue)} {fields : List (String × JValue)}
      {k : String} {v : JValue} :
      (k, v) ∈ fields → OccursIn n v → OccursIn n (.obj fields)
  | inItem {n : List (String × JValue)} {items : List JValue} {v : JValue} :
      v ∈ items → OccursIn n v → OccursIn n (.arr items)

/-- The per-node match condition exactly as the specification sentence words
it, with no non-emptiness guard on the id and label targets: used to compare
the claimed matching rule against the implementation. -/
def specLocalMatch (targetID targetLabel targetContains : String)
    (fields : List (String × JValue)) : Bool :=
  goEqualFold (fieldString fields "AXUniqueId") targetID
  || goEqualFold (fieldString fields "AXLabel") targetLabel
  || (targetContains != ""
      && (goContains (goToLower (fieldString fields "AXLabel")) targetContains
          || goContains (goToLower (fieldString fields "AXValue")) targetContains))

/-! ### The wait_for polling loop (run.go: runWaitForStep)

Wall-clock time is modelled as a logical millisecond counter: the step starts
at instant `0`, each poll is instantaneous, and the poll sleep advances the
counter by the poll interval.  The accessibility query of one poll
(`axeMatchesTarget`) is an oracle from the current instant to either a
backend/parse error or a match verdict. -/

/-- The effective timeout of `runWaitForStep`: the step value when positive,
otherwise the 15000 ms default. -/
def effTimeout (timeoutMS : Int) : Nat :=
  if timeoutMS ≤ 0 then 15000 else timeoutMS.toNat

/-- The effective poll interval of `runWaitForStep`: the step value when
positive, otherwise the 400 ms default. -/
def effPoll (pollMS : Int) : Nat :=
  if pollMS ≤ 0 then 400 else pollMS.toNat

/-- The timeout error text of `runWaitForStep`. -/
def waitForTimeoutMsg (timeoutMS : Nat) : String :=
  "wait_for timed out after " ++ toString timeoutMS ++ "ms"

/-- Models the polling loop of `runWaitForStep` from run.go, also recording
the instants at which the accessibility query is issued.  Each iteration
queries first; a query error returns immediately, a match returns success,
and only then is the deadline compared (`time.Now().After(deadline)` is a
strict comparison), after which the loop sleeps one poll interval. -/
def waitLoop (oracle : Nat → Except String Bool) (poll : Nat) (hp : 0 < poll)
    (deadline : Nat) (now : Nat) : List Nat × Except String Unit :=
  match oracle now with
  | .error e => ([now], .error e)
  | .ok true => ([now], .ok ())
  | .ok false =>
      if deadline < now then ([now], .error (waitForTimeoutMsg deadline))
      else
        let r := waitLoop oracle poll hp deadline (now + poll)
        (now :: r.1, r.2)
termination_by deadline + 1 - now
decreasing_by omega

/-- Models `runWaitForStep` from run.go over a wait_for step's timeout and
poll-interval fields (`intValue` of the optional fields), starting at
instant `0` so the deadline is the effective timeout itself. -/
def runWaitFor (oracle : Nat → Except String Bool) (timeoutMS pollIntervalMS : Int) :
    List Nat × Except String Unit :=
  waitLoop oracle (effPoll pollIntervalMS) (by simp [effPoll]; split <;> omega)
    (effTimeout timeoutMS) 0

/-- Models `axeMatchesTarget` from run.go with the backend invocation and the
JSON decoder as collaborators: `describeUI` is the `axe describe-ui` call at
a given instant and `parse` is `json.Unmarshal`.  A failed invocation is
returned as is; undecodable output becomes the wrapped parse error; otherwise
the tree is searched with the trimmed/lowered targets. -/
def axeMatchesModel (describeUI : Nat → Except String String)
    (parse : String → Except String JValue) (step : PlanStep) (t : Nat) :
    Except String Bool :=
  match describeUI t with
  | .error e => .error e
  | .ok out =>
      match parse out with
      | .error e => .error ("axe describe-ui: parse JSON: " ++ e)
      | .ok root => .ok (axeTreeMatches step root)

/-! ### Generation coalescer (spec-modelled)

Modelled from the spec: the generation coalescer implementation
(`newGenerationCoalescer` and its `Trigger` method) is not among the provided
sources — only its test `TestGenerationCoalescer_TriggersSerialRuns` is.
Following spec sections 4.4, 5 and 9, the coalescer keeps a mutex-guarded
pending flag and a running flag; a `Trigger` that finds a run in flight sets
the pending flag and returns, a `Trigger` that does not claims ownership and
runs `f`; the owner re-checks the pending flag after each run and, when set,
clears it and runs again before releasing ownership.  Each mutex-protected
section is one atomic transition; executing `f` is a separate non-atomic
phase delimited by its own transitions so that overlapping runs would be
expressible. -/

/-- The control location of one `Trigger` call's thread. -/
inductive TriggerPC where
  | entry
  | inRun
  | afterRun
  | done
deriving DecidableEq

/-- The coalescer's shared state plus the location of each of the `n`
`Trigger` threads and a counter of started runs of `f`. -/
structure CoState (n : Nat) where
  running : Bool
  pending : Bool
  pcs : Fin n → TriggerPC
  runs : Nat

/-- One atomic transition of the coalescer protocol. -/
inductive CoStep {n : Nat} : CoState n → CoState n → Prop
  | entryBusy {s : CoState n} (t : Fin n) :
      s.pcs t = .entry → s.running = true →
      CoStep s { s with pending := true,
                        pcs := fun u => if u = t then .done else s.pcs u }
  | entryClaim {s : CoState n} (t : Fin n) :
      s.pcs t = .entry → s.running = false →
      CoStep s { s with running := true, runs := s.runs + 1,
                        pcs := fun u => if u = t then .inRun else s.pcs u }
  | finishRun {s : CoState n} (t : Fin n) :
      s.pcs t = .inRun →
      CoStep s { s with pcs := fun u => if u = t then .afterRun else s.pcs u }
  | checkPending {s : CoState n} (t : Fin n) :
      s.pcs t = .afterRun → s.pending = true →
      CoStep s { s with pending := false, runs := s.runs + 1,
                        pcs := fun u => if u = t then .inRun else s.pcs u }
  | checkDone {s : CoState n} (t : Fin n) :
      s.pcs t = .afterRun → s.pending = false →
      CoStep s { s with running := false,
                        pcs := fun u => if u = t then .done else s.pcs u }

/-- Executions of the coalescer protocol. -/
def CoReach {n : Nat} : CoState n → CoState n → Prop :=
  Relation.ReflTransGen CoStep

/-- The idle coalescer with `n` `Trigger` calls about to run. -/
def coInit (n : Nat) : CoState n :=
  { running := false, pending := false, pcs := fun _ => .entry, runs := 0 }

/-- The scenario state of the coalescer test: thread `0` owns the first run of
`f`, which is in flight, and `n` further `Trigger` calls are about to run. -/
def coFirstRun (n : Nat) : CoState (n + 1) :=
  { running := true, pending := false,
    pcs := fun u => if u = 0 then .inRun else .entry, runs := 1 }

/-- The scenario state after the burst: the first run is still in flight, the
`n` extra `Trigger` calls have all completed against it, and the pending flag
is set. -/
def coAfterBurst (n : Nat) : CoState (n + 1) :=
  { running := true, pending := true,
    pcs := fun u => if u = 0 then .inRun else .done, runs := 1 }

/-- A thread currently owns the coalescer: it is executing `f` or holds
ownership between runs. -/
def isOwner (pc : TriggerPC) : Bool :=
  match pc with
  | .inRun => true
  | .afterRun => true
  | _ => false

/-- No transition is enabled exactly when every thread has returned. -/
def CoQuiescent {n : Nat} (s : CoState n) : Prop :=
  ∀ t : Fin n, s.pcs t = .done

/-- The locale shape described by the specification: over the
hyphen-normalised, trimmed token, at most 3 hyphen-separated groups (the
split always yields at least one), each group non-empty and all-alphabetic,
the first group 2 to 3 letters and the later groups 2 to 8 letters. -/
def localeShapeSpec (tok : String) : Prop :=
  (goSplit (goTrim (replaceUnderscores tok)) '-').length ≤ 3 ∧
    ∀ p ∈ (goSplit (goTrim (replaceUnderscores tok)) '-').enum,
      p.2 ≠ "" ∧ p.2.data.all goIsLetter = true ∧ 2 ≤ p.2.length ∧
        p.2.length ≤ (if p.1 = 0 then 3 else 8)

/-- The intermediate states of the coalescer burst scenario: the first run is
in flight on thread `0` and the extra `Trigger` calls with indices `1..k`
have completed against it (setting the pending flag once `k > 0`). -/
def burstState (n k : Nat) : CoState (n + 1) :=
  { running := true, pending := decide (0 < k),
    pcs := fun u => if u = 0 then .inRun else if u.val ≤ k then .done else .entry,
    runs := 1 }

/-- The serialization invariant of the coalescer protocol: with no run in
flight no thread owns the coalescer, and with a run in flight exactly one
thread does. -/
def OwnerInv {n : Nat} (s : CoState n) : Prop :=
  (s.running = false → ∀ t, isOwner (s.pcs t) = false) ∧
  (s.running = true →
    ∃ t, isOwner (s.pcs t) = true ∧ ∀ u, isOwner (s.pcs u) = true → u = t)

/-- The state space reachable from the post-burst scenario state: every
non-owner thread is done, and the owner walks deterministically through the
second run to completion. -/
def AfterBurstInv (n : Nat) (s : CoState (n + 1)) : Prop :=
  (∀ u : Fin (n + 1), u ≠ 0 → s.pcs u = .done) ∧
  ((s.pcs 0 = .inRun ∧ s.pending = true ∧ s.runs = 1 ∧ s.running = true) ∨
   (s.pcs 0 = .afterRun ∧ s.pending = true ∧ s.runs = 1 ∧ s.running = true) ∨
   (s.pcs 0 = .inRun ∧ s.pending = false ∧ s.runs = 2 ∧ s.running = true) ∨
   (s.pcs 0 = .afterRun ∧ s.pending = false ∧ s.runs = 2 ∧ s.running = true) ∨
   (s.pcs 0 = .done ∧ s.pending = false ∧ s.runs = 2 ∧ s.running = false))

/-- The bare-id invariant of the `buildRawIndex` fold: for every trimmed id
`t`, an ambiguous id has no mapping, and an unambiguous id either has no
mapping and no processed file carries it, or maps to the path of the unique
processed file carrying it. -/
def IdInv (processed : List RawFile)
    (st : (String → Option String) × (String → Bool)) : Prop :=
  ∀ t : String,
    (st.2 ("id|" ++ t) = true → st.1 ("id|" ++ t) = none) ∧
    (st.2 ("id|" ++ t) = false →
      ((st.1 ("id|" ++ t) = none ∧ ∀ f ∈ processed, goTrim (rawFileID f) ≠ t) ∨
        (∃ p, st.1 ("id|" ++ t) = some p ∧
          (∃ f ∈ processed, f.path = p) ∧
          (∀ g ∈ processed, goTrim (rawFileID g) = t → g.path = p))))

/-! ### Theorems -/

theorem utf8ByteSize_go_cons (c : Char) (cs : List Char) :
    String.utf8ByteSize.go (c :: cs) = String.utf8ByteSize.go cs + c.utf8Size := rfl

theorem utf8Size_of_goIsLetter (c : Char) (h : goIsLetter c = true) : c.utf8Size = 1 := by
  simp [goIsLetter, Char.isAlpha, Char.isUpper, Char.isLower, Char.le_def,
    UInt32.le_def, BitVec.le_def] at h
  simp only [Char.utf8Size]
  rw [if_pos]
  change c.val ≤ 127
  rw [UInt32.le_def, BitVec.le_def]
  have h127 : (UInt32.toBitVec 127).toNat = 127 := rfl
  omega

theorem utf8ByteSize_go_eq_length (l : List Char) (h : l.all goIsLetter = true) :
    String.utf8ByteSize.go l = l.length := by
  induction l with
  | nil => rfl
  | cons c cs ih =>
      simp only [List.all_cons, Bool.and_eq_true] at h
      rw [utf8ByteSize_go_cons, utf8Size_of_goIsLetter c h.1, ih h.2]
      simp

theorem utf8ByteSize_eq_length (s : String) (h : s.data.all goIsLetter = true) :
    s.utf8ByteSize = s.length := by
  cases s with
  | mk l => simpa [String.utf8ByteSize, String.length_mk] using utf8ByteSize_go_eq_length l h

theorem localePartOK_iff (i : Nat) (p : String) :
    localePartOK i p = true ↔
      p ≠ "" ∧ p.data.all goIsLetter = true ∧ 2 ≤ p.length ∧
        p.length ≤ (if i = 0 then 3 else 8) := by
  unfold localePartOK
  by_cases hp : p = ""
  · simp [hp]
  · have hp' : (p == "") = false := by simp [hp]
    simp only [hp', Bool.false_eq_true, if_false, ne_eq, hp, not_false_eq_true, true_and]
    have hmax : (if i > 0 then 8 else 3) = (if i = 0 then 3 else 8) := by
      rcases i with _ | j <;> simp
    rw [hmax]
    by_cases hbad : (p.utf8ByteSize < 2 || p.utf8ByteSize > (if i = 0 then 3 else 8)) = true
    · simp only [hbad, if_true]
      constructor
      · intro h
        exact absurd h (by simp)
      · rintro ⟨hlet, hlo, hhi⟩
        have := utf8ByteSize_eq_length p hlet
        simp only [Bool.or_eq_true, decide_eq_true_eq, gt_iff_lt] at hbad
        omega
    · have hbad' : (p.utf8ByteSize < 2 || p.utf8ByteSize > (if i = 0 then 3 else 8)) = false := by
        simpa using hbad
      simp only [hbad', Bool.false_eq_true, if_false]
      constructor
      · intro hlet
        have := utf8ByteSize_eq_length p hlet
        simp only [Bool.or_eq_true, decide_eq_true_eq, gt_iff_lt, not_or, not_lt] at hbad
        refine ⟨hlet, by omega, by omega⟩
      · rintro ⟨hlet, -, -⟩
        exact hlet

theorem looksLikeLocale_iff (tok : String) :
    looksLikeLocale tok = true ↔ localeShapeSpec tok := by
  unfold looksLikeLocale localeShapeSpec
  by_cases h0 : goTrim (replaceUnderscores tok) = ""
  · rw [h0]
    simp only [show ("" == "") = true from rfl, if_true]
    have hsplit : goSplit "" '-' = [""] := rfl
    simp [hsplit, List.enum]
  · have h0' : (goTrim (replaceUnderscores tok) == "") = false := by simp [h0]
    simp only [h0', Bool.false_eq_true, if_false]
    by_cases h3 : (goSplit (goTrim (replaceUnderscores tok)) '-').length > 3
    · simp only [h3, if_true]
      constructor
      · intro h
        exact absurd h (by simp)
      · rintro ⟨hle, -⟩
        omega
    · simp only [h3, if_false]
      have hle : (goSplit (goTrim (replaceUnderscores tok)) '-').length ≤ 3 := by omega
      rw [List.all_eq_true]
      constructor
      · intro h
        refine ⟨hle, fun p hp => ?_⟩
        have := h p hp
        exact (localePartOK_iff p.1 p.2).mp this
      · rintro ⟨-, h⟩
        intro p hp
        exact (localePartOK_iff p.1 p.2).mpr (h p hp)

/-- C7: locale/device inference returns the first two path segments when the
relative path has three or more segments; with exactly two segments the
leading segment is the locale precisely when it passes the locale shape test
(1-3 hyphen/underscore-separated all-alphabetic groups, first group 2-3
letters, later groups up to 8 letters) and the device otherwise; in
particular "en/iPhone_Air/home.png" infers ("en", "iPhone_Air") and
"iPhone_Air/home.png" infers ("", "iPhone_Air"). -/
theorem claim_C7_infer_locale_device (rel tok : String) :
    (∀ a b c rest, goSplit rel '/' = a :: b :: c :: rest →
        inferLocaleAndDevice rel = (a, b)) ∧
    (∀ a b, goSplit rel '/' = [a, b] →
        inferLocaleAndDevice rel =
          (if looksLikeLocale a then (a, "") else ("", a))) ∧
    (looksLikeLocale tok = true ↔ localeShapeSpec tok) ∧
    inferLocaleAndDevice "en/iPhone_Air/home.png" = ("en", "iPhone_Air") ∧
    inferLocaleAndDevice "iPhone_Air/home.png" = ("", "iPhone_Air") := by
  refine ⟨?_, ?_, looksLikeLocale_iff tok, by decide, by decide⟩
  · intro a b c rest h
    unfold inferLocaleAndDevice
    rw [h]
  · intro a b h
    unfold inferLocaleAndDevice
    rw [h]

/-- C7 witness: the theorem applied at the two concrete paths of the claim. -/
theorem claim_C7_infer_locale_device_witness :
    goSplit "en/iPhone_Air/home.png" '/' = ["en", "iPhone_Air", "home.png"] ∧
    inferLocaleAndDevice "en/iPhone_Air/home.png" = ("en", "iPhone_Air") ∧
    goSplit "iPhone_Air/home.png" '/' = ["iPhone_Air", "home.png"] ∧
    inferLocaleAndDevice "iPhone_Air/home.png" =
      (if looksLikeLocale "iPhone_Air" then ("iPhone_Air", "") else ("", "iPhone_Air")) :=
  ⟨by decide,
   (claim_C7_infer_locale_device "en/iPhone_Air/home.png" "en").1 "en" "iPhone_Air"
     "home.png" [] (by decide),
   by decide,
   (claim_C7_infer_locale_device "iPhone_Air/home.png" "en").2.1 "iPhone_Air"
     "home.png" (by decide)⟩

/-- C6: the review status is the stated pure function of
(hasRaw, hasValidSize), and in the scenario of one valid-size framed image
and one invalid-size framed image with no raw directory the entries get
statuses missing_raw and missing_raw_invalid_size, the summary counts
missing_raw as 2 (the combined status counts toward both totals) and
invalid_size as 1. -/
theorem claim_C6_status_table_and_summary :
    (∀ hasRaw hasValidSize : Bool,
        deriveReviewStatus hasRaw hasValidSize =
          (if hasRaw && hasValidSize then "ready"
           else if hasValidSize then "missing_raw"
           else if hasRaw then "invalid_size"
           else "missing_raw_invalid_size")) ∧
    buildEntriesNoRaw [true, false] =
      [⟨"missing_raw", false⟩, ⟨"missing_raw_invalid_size", false⟩] ∧
    (summarizeReviewEntries (buildEntriesNoRaw [true, false])).missingRaw = 2 ∧
    (summarizeReviewEntries (buildEntriesNoRaw [true, false])).invalidSize = 1 ∧
    (summarizeReviewEntries (buildEntriesNoRaw [true, false])).ready = 0 ∧
    (summarizeReviewEntries (buildEntriesNoRaw [true, false])).total = 2 := by
  refine ⟨by decide, by decide, by decide, by decide, by decide, by decide⟩

theorem dropWhile_eq_self_of_head (p : Char → Bool) (l : List Char)
    (h : ∀ x ∈ l.head?, p x = false) : l.dropWhile p = l := by
  cases l with
  | nil => rfl
  | cons c rest =>
      have := h c (by simp)
      simp [List.dropWhile, this]

theorem head_dropWhile_false (p : Char → Bool) (l : List Char) :
    ∀ x ∈ (l.dropWhile p).head?, p x = false := by
  intro x hx
  have := List.head?_dropWhile_not p l
  simp only [Option.mem_def] at hx
  rw [hx] at this
  simpa using this

theorem getLast?_of_suffix {B L : List Char} (h : B <:+ L) (hne : B ≠ []) :
    B.getLast? = L.getLast? := by
  obtain ⟨pre, hpre⟩ := h
  rw [← hpre]
  exact (List.getLast?_append_of_ne_nil _ hne).symm

theorem trimChars_fixed (m : List Char)
    (h1 : ∀ x ∈ m.head?, goIsSpace x = false)
    (h2 : ∀ x ∈ m.getLast?, goIsSpace x = false) : trimChars m = m := by
  unfold trimChars
  rw [dropWhile_eq_self_of_head goIsSpace m h1]
  rw [dropWhile_eq_self_of_head goIsSpace m.reverse
    (by simpa [List.head?_reverse] using h2)]
  exact List.reverse_reverse m

theorem trimChars_idem (l : List Char) : trimChars (trimChars l) = trimChars l := by
  apply trimChars_fixed
  · intro x hx
    rw [show trimChars l =
          ((l.dropWhile goIsSpace).reverse.dropWhile goIsSpace).reverse from rfl,
      List.head?_reverse] at hx
    by_cases hBnil : (l.dropWhile goIsSpace).reverse.dropWhile goIsSpace = []
    · rw [hBnil] at hx
      simp at hx
    · rw [getLast?_of_suffix (List.dropWhile_suffix goIsSpace) hBnil,
        List.getLast?_reverse] at hx
      exact head_dropWhile_false goIsSpace l x hx
  · intro x hx
    rw [show trimChars l =
          ((l.dropWhile goIsSpace).reverse.dropWhile goIsSpace).reverse from rfl,
      List.getLast?_reverse] at hx
    exact head_dropWhile_false goIsSpace (l.dropWhile goIsSpace).reverse x hx

theorem goTrim_idem (s : String) : goTrim (goTrim s) = goTrim s := by
  unfold goTrim
  exact congrArg String.mk (trimChars_idem s.data)

theorem loadApprovals_trimmed (doc : ApprovalsDoc) :
    ∀ k ∈ loadApprovals doc, goTrim k = k := by
  intro k hk
  cases doc with
  | mapFormat entries =>
      simp only [loadApprovals, List.mem_toFinset, List.mem_map] at hk
      obtain ⟨p, -, hp⟩ := hk
      rw [← hp, goTrim_idem]
  | listFormat keys =>
      simp only [loadApprovals, List.mem_toFinset, List.mem_filter, List.mem_map] at hk
      obtain ⟨⟨p, -, hp⟩, -⟩ := hk
      rw [← hp, goTrim_idem]
  | wrappedFormat approved =>
      simp only [loadApprovals, List.mem_toFinset, List.mem_filter, List.mem_map] at hk
      obtain ⟨⟨p, -, hp⟩, -⟩ := hk
      rw [← hp, goTrim_idem]

theorem approvalsRoundTrip_eq (s : Finset String) :
    approvalsRoundTrip s = (s.image goTrim).erase "" := by
  unfold approvalsRoundTrip loadApprovals SaveApprovals
  ext k
  simp only [List.mem_toFinset, List.mem_filter, List.mem_map, Finset.mem_sort,
    Finset.mem_erase, Finset.mem_image, ne_eq, decide_eq_true_eq]
  constructor
  · rintro ⟨⟨a, ⟨hane, b, hb, hba⟩, hak⟩, hkne⟩
    refine ⟨hkne, b, hb, ?_⟩
    rw [← hak, ← hba, goTrim_idem]
  · rintro ⟨hkne, b, hb, hbk⟩
    refine ⟨⟨k, ⟨hkne, b, hb, hbk⟩, ?_⟩, hkne⟩
    rw [← hbk, goTrim_idem]

theorem loadApprovals_map_space : loadApprovals (.mapFormat [(" ", true)]) = {""} := by
  have : goTrim " " = "" := rfl
  simp [loadApprovals, this]

/-- C2 counterexample: the claim fails as stated.  A legacy object-of-booleans
file whose only key is a single space loads to the approved-key set containing
the empty key (the map format branch of loadApprovals has no emptiness
check), so the loaded set holds a non-trimmed-to-nonempty key and the
save/load round trip drops it. -/
theorem claim_C2_counterexample :
    "" ∈ loadApprovals (.mapFormat [(" ", true)]) ∧
      approvalsRoundTrip (loadApprovals (.mapFormat [(" ", true)])) ≠
        loadApprovals (.mapFormat [(" ", true)]) := by
  constructor
  · rw [loadApprovals_map_space]
    simp
  · rw [loadApprovals_map_space, approvalsRoundTrip_eq]
    have h0 : goTrim "" = "" := rfl
    simp only [Finset.image_singleton, h0, Finset.erase_singleton]
    exact (Finset.singleton_ne_empty "").symm

/-- C2 (amended): every key loaded by loadApprovals is trimmed; the
save/load round trip yields exactly the loaded set minus the empty key, so it
is the identity whenever the loaded set has no empty key — which always holds
for the array-of-keys and wrapper legacy formats, while the
object-of-booleans format may contribute one empty key from a
whitespace-only key. -/
theorem claim_C2_approvals_roundtrip (doc : ApprovalsDoc) :
    (∀ k ∈ loadApprovals doc, goTrim k = k) ∧
    approvalsRoundTrip (loadApprovals doc) = (loadApprovals doc).erase "" ∧
    ("" ∉ loadApprovals doc →
        approvalsRoundTrip (loadApprovals doc) = loadApprovals doc) ∧
    (∀ keys, doc = .listFormat keys → "" ∉ loadApprovals doc) ∧
    (∀ keys, doc = .wrappedFormat keys → "" ∉ loadApprovals doc) := by
  have htrim := loadApprovals_trimmed doc
  have himg : (loadApprovals doc).image goTrim = loadApprovals doc := by
    ext k
    simp only [Finset.mem_image]
    constructor
    · rintro ⟨b, hb, hbk⟩
      rw [← hbk, htrim b hb]
      exact hb
    · intro hk
      exact ⟨k, hk, htrim k hk⟩
  have hrt : approvalsRoundTrip (loadApprovals doc) = (loadApprovals doc).erase "" := by
    rw [approvalsRoundTrip_eq, himg]
  refine ⟨htrim, hrt, ?_, ?_, ?_⟩
  · intro hne
    rw [hrt]
    exact Finset.erase_eq_of_not_mem hne
  · rintro keys rfl hmem
    simp only [loadApprovals, List.mem_toFinset, List.mem_filter, decide_eq_true_eq] at hmem
    exact hmem.2 rfl
  · rintro keys rfl hmem
    simp only [loadApprovals, List.mem_toFinset, List.mem_filter, decide_eq_true_eq] at hmem
    exact hmem.2 rfl

/-- C2 witness: the amended theorem applied to a concrete array-of-keys
document, whose loaded set round-trips exactly. -/
theorem claim_C2_approvals_roundtrip_witness :
    (∀ k ∈ loadApprovals (.listFormat [" a ", "b"]), goTrim k = k) ∧
      approvalsRoundTrip (loadApprovals (.listFormat [" a ", "b"])) =
        loadApprovals (.listFormat [" a ", "b"]) := by
  have h := claim_C2_approvals_roundtrip (.listFormat [" a ", "b"])
  exact ⟨h.1, h.2.2.1 (h.2.2.2.1 [" a ", "b"] rfl)⟩

/-- C5: with no review-key hit, a bare-id raw candidate is accepted exactly
when it is locale/device-agnostic (both inferred segments empty) or its
inferred locale and device pass the code's compatibility check against the
framed entry — the framed segment is empty or equal to the candidate's
segment, for both locale and device; otherwise the raw path stays empty.
(The unconditional acceptance for a fully generic framed entry is the
condition's special case locale = device = "".) -/
theorem claim_C5_bare_id_compatibility (locale device candidate candidateRel : String)
    (hc : candidate ≠ "") :
    resolveRawPath locale device "" candidate candidateRel =
      (if ((inferLocaleAndDevice candidateRel).1 = "" ∧
            (inferLocaleAndDevice candidateRel).2 = "") ∨
          ((locale = "" ∨ locale = (inferLocaleAndDevice candidateRel).1) ∧
            (device = "" ∨ device = (inferLocaleAndDevice candidateRel).2))
       then candidate else "") := by
  unfold resolveRawPath
  have h1 : (("" : String) != "") = false := rfl
  have h2 : (candidate == "") = false := by simpa using hc
  simp only [h1, Bool.false_eq_true, if_false, h2]
  by_cases hgen : locale = "" ∧ device = ""
  · simp [hgen.1, hgen.2]
  · have hb : (locale == "" && device == "") = false := by
      rcases not_and_or.mp hgen with h | h <;> simp [h]
    simp only [hb, Bool.false_eq_true, if_false]
    simp only [Bool.or_eq_true, Bool.and_eq_true, beq_iff_eq]

/-- C5 witness: the theorem applied to a framed entry (en, iPhone) and a
candidate whose own inferred locale is fr — a conflict, so the raw path
stays empty. -/
theorem claim_C5_bare_id_compatibility_witness :
    resolveRawPath "en" "iPhone" "" "/raw/x.png" "fr/iPhone/x.png" = "" := by
  rw [claim_C5_bare_id_compatibility "en" "iPhone" "/raw/x.png" "fr/iPhone/x.png"
    (by decide)]
  decide

theorem runPlanAux_spec (handler : Nat → PlanStep → Except String Unit) (e : String) :
    ∀ (steps : List PlanStep) (i k : Nat) (hk : k < steps.length),
      (∀ j (hj : j < k), handler (i + j) (steps.get ⟨j, hj.trans hk⟩) = .ok ()) →
      handler (i + k) (steps.get ⟨k, hk⟩) = .error e →
      runPlanAux handler i steps =
        (((steps.take k).enumFrom i).map
            (fun p => ⟨p.1 + 1, normAction p.2.action, "ok", ""⟩)
          ++ [⟨i + k + 1, normAction (steps.get ⟨k, hk⟩).action, "error", e⟩],
         some (stepWrapError (i + k + 1) (normAction (steps.get ⟨k, hk⟩).action) e))
      ∧ runPlanDispatchedAux handler i steps = List.range' i (k + 1) := by
  intro steps
  induction steps with
  | nil =>
      intro i k hk
      exact absurd hk (by simp)
  | cons s rest ih =>
      intro i k hk hpre hfail
      cases k with
      | zero =>
          simp only [List.get] at hfail
          have hfail' : handler i s = .error e := by simpa using hfail
          constructor
          · simp [runPlanAux, hfail', List.take, List.enumFrom, stepWrapError]
          · simp [runPlanDispatchedAux, hfail', List.range']
      | succ k =>
          have hok : handler i s = .ok () := by
            have := hpre 0 (Nat.succ_pos k)
            simpa using this
          have hpre' : ∀ j (hj : j < k),
              handler (i + 1 + j) (rest.get ⟨j, hj.trans (Nat.lt_of_succ_lt_succ hk)⟩) =
                .ok () := by
            intro j hj
            have := hpre (j + 1) (Nat.succ_lt_succ hj)
            simp only [List.get] at this
            rw [show i + (j + 1) = i + 1 + j by omega] at this
            exact this
          have hfail' :
              handler (i + 1 + k) (rest.get ⟨k, Nat.lt_of_succ_lt_succ hk⟩) = .error e := by
            have := hfail
            simp only [List.get] at this
            rw [show i + (k + 1) = i + 1 + k by omega] at this
            exact this
          obtain ⟨ihres, ihdisp⟩ :=
            ih (i + 1) k (Nat.lt_of_succ_lt_succ hk) hpre' hfail'
          have hidx : i + 1 + k + 1 = i + (k + 1) + 1 := by omega
          rw [hidx] at ihres
          have hget : (s :: rest).get ⟨k + 1, hk⟩ =
              rest.get ⟨k, Nat.lt_of_succ_lt_succ hk⟩ := rfl
          constructor
          · have hstep : runPlanAux handler i (s :: rest) =
                (⟨i + 1, normAction s.action, "ok", ""⟩ ::
                    (runPlanAux handler (i + 1) rest).1,
                  (runPlanAux handler (i + 1) rest).2) := by
              simp [runPlanAux, hok]
            rw [hstep, ihres, hget]
            simp [List.take_succ_cons, List.enumFrom_cons]
          · have hdstep : runPlanDispatchedAux handler i (s :: rest) =
                i :: runPlanDispatchedAux handler (i + 1) rest := by
              simp [runPlanDispatchedAux, hok]
            rw [hdstep, ihdisp]
            simp [List.range']

/-- C1: when the first k steps' handlers succeed and the handler of the step
at 0-based position k fails with cause e, RunPlan returns exactly k + 1 step
results in step order — ok results for the first k steps and an error result
carrying e for the failing one — together with the wrapped error
"step k+1 (action): e"; exactly the first k + 1 steps are dispatched, so no
step after the failing one is ever attempted. -/
theorem claim_C1_runplan_stops_at_failure (steps : List PlanStep)
    (handler : Nat → PlanStep → Except String Unit) (k : Nat) (e : String)
    (hk : k < steps.length)
    (hpre : ∀ j (hj : j < k), handler j (steps.get ⟨j, hj.trans hk⟩) = .ok ())
    (hfail : handler k (steps.get ⟨k, hk⟩) = .error e) :
    (runPlanSteps handler steps).1 =
      ((steps.take k).enum.map (fun p => ⟨p.1 + 1, normAction p.2.action, "ok", ""⟩)
        ++ [⟨k + 1, normAction (steps.get ⟨k, hk⟩).action, "error", e⟩]) ∧
    (runPlanSteps handler steps).2 =
      some (stepWrapError (k + 1) (normAction (steps.get ⟨k, hk⟩).action) e) ∧
    (runPlanSteps handler steps).1.length = k + 1 ∧
    runPlanDispatched handler steps = List.range (k + 1) := by
  have hpre0 : ∀ j (hj : j < k), handler (0 + j) (steps.get ⟨j, hj.trans hk⟩) = .ok () := by
    intro j hj
    simpa using hpre j hj
  have hfail0 : handler (0 + k) (steps.get ⟨k, hk⟩) = .error e := by simpa using hfail
  obtain ⟨hres, hdisp⟩ := runPlanAux_spec handler e steps 0 k hk hpre0 hfail0
  unfold runPlanSteps runPlanDispatched
  rw [hres, hdisp]
  refine ⟨by simp [List.enum], by simp, ?_, (List.range_eq_range' (k + 1)).symm ▸ rfl⟩
  simp only [List.length_append, List.length_map, List.enumFrom_length,
    List.length_take, List.length_singleton]
  omega

/-- C1 witness: the theorem applied to a two-step plan whose second step's
handler fails with cause "boom". -/
theorem claim_C1_runplan_stops_at_failure_witness :
    (runPlanSteps
        (fun i _ => if i = 0 then .ok () else .error "boom")
        [{ action := "launch" }, { action := " Tap " }]).1 =
      ([⟨1, "launch", "ok", ""⟩] ++ [⟨2, "tap", "error", "boom"⟩]) ∧
    (runPlanSteps
        (fun i _ => if i = 0 then .ok () else .error "boom")
        [{ action := "launch" }, { action := " Tap " }]).2 =
      some "step 2 (tap): boom" ∧
    runPlanDispatched
        (fun i _ => if i = 0 then .ok () else .error "boom")
        [{ action := "launch" }, { action := " Tap " }] = [0, 1] := by
  obtain ⟨h1, h2, -, h4⟩ :=
    claim_C1_runplan_stops_at_failure
      [{ action := "launch" }, { action := " Tap " }]
      (fun i _ => if i = 0 then .ok () else .error "boom") 1 "boom"
      (by decide)
      (by
        intro j hj
        have hj0 : j = 0 := by omega
        subst hj0
        rfl)
      rfl
  refine ⟨?_, ?_, ?_⟩
  · rw [h1]
    decide
  · rw [h2]
    decide
  · rw [h4]
    decide

theorem nodeMatchesItems_iff (tid tlab tcon : String) (items : List JValue) :
    nodeMatchesItems tid tlab tcon items = true ↔
      ∃ v ∈ items, nodeMatches tid tlab tcon v = true := by
  induction items with
  | nil => simp [nodeMatchesItems]
  | cons v rest ih => simp [nodeMatchesItems, ih]

theorem nodeMatchesFields_iff (tid tlab tcon : String) (fields : List (String × JValue)) :
    nodeMatchesFields tid tlab tcon fields = true ↔
      ∃ p ∈ fields, nodeMatches tid tlab tcon p.2 = true := by
  induction fields with
  | nil => simp [nodeMatchesFields]
  | cons p rest ih =>
      rcases p with ⟨k, v⟩
      simp [nodeMatchesFields, ih]

theorem nodeMatches_of_occurs (tid tlab tcon : String) {fields : List (String × JValue)}
    {root : JValue} (hocc : OccursIn fields root)
    (hloc : localNodeMatch tid tlab tcon fields = true) :
    nodeMatches tid tlab tcon root = true := by
  induction hocc with
  | self => simp [nodeMatches, hloc]
  | inField hmem hsub ih =>
      simp only [nodeMatches, Bool.or_eq_true]
      right
      rw [nodeMatchesFields_iff]
      exact ⟨_, hmem, ih⟩
  | inItem hmem hsub ih =>
      simp only [nodeMatches]
      rw [nodeMatchesItems_iff]
      exact ⟨_, hmem, ih⟩

theorem occurs_of_nodeMatches_bounded (tid tlab tcon : String) :
    ∀ (n : Nat) (root : JValue), sizeOf root ≤ n →
      nodeMatches tid tlab tcon root = true →
      ∃ fields, OccursIn fields root ∧ localNodeMatch tid tlab tcon fields = true := by
  intro n
  induction n with
  | zero =>
      intro root hsz
      cases root <;> simp_all
  | succ n ih =>
      intro root hsz hmatch
      cases root with
      | null => simp [nodeMatches] at hmatch
      | bool b => simp [nodeMatches] at hmatch
      | num m => simp [nodeMatches] at hmatch
      | str s => simp [nodeMatches] at hmatch
      | obj fields =>
          rw [show nodeMatches tid tlab tcon (.obj fields) =
                (localNodeMatch tid tlab tcon fields
                  || nodeMatchesFields tid tlab tcon fields) from rfl] at hmatch
          rcases Bool.or_eq_true_iff.mp hmatch with hloc | hrec
          · exact ⟨fields, .self fields, hloc⟩
          · obtain ⟨p, hp, hpm⟩ := (nodeMatchesFields_iff tid tlab tcon fields).mp hrec
            have hszp : sizeOf p < sizeOf fields := List.sizeOf_lt_of_mem hp
            have hszv : sizeOf p.2 ≤ n := by
              rcases p with ⟨k, v⟩
              have h1 : sizeOf (JValue.obj fields) = 1 + sizeOf fields := by simp
              have h2 : sizeOf ((k, v) : String × JValue) = 1 + sizeOf k + sizeOf v := by
                simp
              rw [h1] at hsz
              rw [h2] at hszp
              show sizeOf v ≤ n
              omega
            obtain ⟨f, hocc, hloc⟩ := ih p.2 hszv hpm
            exact ⟨f, .inField hp hocc, hloc⟩
      | arr items =>
          rw [show nodeMatches tid tlab tcon (.arr items) =
                nodeMatchesItems tid tlab tcon items from rfl] at hmatch
          obtain ⟨v, hv, hvm⟩ := (nodeMatchesItems_iff tid tlab tcon items).mp hmatch
          have hszm : sizeOf v < sizeOf items := List.sizeOf_lt_of_mem hv
          have hszv : sizeOf v ≤ n := by
            have h1 : sizeOf (JValue.arr items) = 1 + sizeOf items := by simp
            rw [h1] at hsz
            omega
          obtain ⟨f, hocc, hloc⟩ := ih v hszv hvm
          exact ⟨f, .inItem hv hocc, hloc⟩

/-- C3 (amended): the matcher reports a match on a tree exactly when some map
node anywhere in it, at any depth, passes the per-node test — non-empty
target id case-insensitively equal to the node's unique-id, or non-empty
target label case-insensitively equal to the node's label, or non-empty
contains text case-insensitively contained in the node's label or value; the
amendment adds the non-emptiness requirement on the id and label targets,
which the code enforces and the claim stated only for contains. -/
theorem claim_C3_matcher_iff_occurs (targetID targetLabel targetContains : String)
    (root : JValue) :
    nodeMatches targetID targetLabel targetContains root = true ↔
      ∃ fields, OccursIn fields root ∧
        localNodeMatch targetID targetLabel targetContains fields = true := by
  constructor
  · exact occurs_of_nodeMatches_bounded targetID targetLabel targetContains
      (sizeOf root) root (Nat.le_refl _)
  · rintro ⟨fields, hocc, hloc⟩
    exact nodeMatches_of_occurs targetID targetLabel targetContains hocc hloc

/-- C3 counterexample: the claim fails as stated for the all-empty wait_for
target.  The empty root map node has unique-id and label rendering as "",
which is case-insensitively equal to the empty target id and label, so under
the claim's wording some node matches; the matcher nevertheless reports no
match, because the code additionally requires a non-empty target id or label
(a guard the claim states only for the contains target). -/
theorem claim_C3_counterexample :
    nodeMatches "" "" "" (JValue.obj []) = false ∧
      OccursIn [] (JValue.obj []) ∧
      specLocalMatch "" "" "" [] = true :=
  ⟨rfl, .self [], by decide⟩

theorem mapUpd_same (m : String → Option String) (k : String) (v : Option String) :
    mapUpd m k v k = v := by
  simp [mapUpd]

theorem mapUpd_other (m : String → Option String) (k : String) (v : Option String)
    (x : String) (h : x ≠ k) : mapUpd m k v x = m x := by
  simp [mapUpd, h]

theorem idKey_ne_reviewKey (a b : String) : ("id|" ++ a : String) ≠ "review|" ++ b := by
  intro h
  have h2 := congrArg String.data h
  rw [String.data_append, String.data_append] at h2
  have e1 : "id|".data = ['i', 'd', '|'] := rfl
  have e2 : "review|".data = ['r', 'e', 'v', 'i', 'e', 'w', '|'] := rfl
  rw [e1, e2] at h2
  simp at h2

theorem idKey_inj {a b : String} (h : ("id|" ++ a : String) = "id|" ++ b) : a = b := by
  have h2 := congrArg String.data h
  rw [String.data_append, String.data_append] at h2
  have h3 := List.append_cancel_left h2
  cases a
  cases b
  exact congrArg String.mk h3

theorem reviewOnlyStep_at_id (m : String → Option String) (f : RawFile) (t : String) :
    reviewOnlyStep m f ("id|" ++ t) = m ("id|" ++ t) := by
  have hne : ("id|" ++ t : String) ≠ rawFileReviewKey f := by
    intro h
    exact idKey_ne_reviewKey t
      (makeReviewKey (inferLocaleAndDevice f.rel).1 (inferLocaleAndDevice f.rel).2
        (rawFileID f)) h
  rcases hv : m (rawFileReviewKey f) with _ | v
  · simp [reviewOnlyStep, hv, mapUpd_other _ _ _ _ hne]
  · simp [reviewOnlyStep, hv]

theorem idStep_eval_other (st : (String → Option String) × (String → Bool))
    (f : RawFile) (x : String) (hx : x ≠ rawIndexScreenshotKey (rawFileID f)) :
    (idStep st f).1 x = st.1 x ∧ (idStep st f).2 x = st.2 x := by
  by_cases hamb : st.2 (rawIndexScreenshotKey (rawFileID f)) = true
  · constructor <;> simp [idStep, hamb, mapUpd_other _ _ _ _ hx]
  · have hamb' : st.2 (rawIndexScreenshotKey (rawFileID f)) = false := by
      simpa using hamb
    rcases hidx : st.1 (rawIndexScreenshotKey (rawFileID f)) with _ | ex
    · constructor <;> simp [idStep, hamb', hidx, mapUpd_other _ _ _ _ hx]
    · by_cases hex : ex = f.path
      · constructor <;> simp [idStep, hamb', hidx, hex]
      · constructor <;> simp [idStep, hamb', hidx, hex, mapUpd_other _ _ _ _ hx, hx]

theorem idStep_at_review (st : (String → Option String) × (String → Bool)) (f : RawFile)
    (k : String) : (idStep st f).1 ("review|" ++ k) = st.1 ("review|" ++ k) := by
  have hne : ("review|" ++ k : String) ≠ rawIndexScreenshotKey (rawFileID f) := by
    intro h
    exact idKey_ne_reviewKey (goTrim (rawFileID f)) k h.symm
  exact (idStep_eval_other st f _ hne).1

theorem rawIndexStep_inv (processed : List RawFile)
    (st : (String → Option String) × (String → Bool)) (f : RawFile)
    (h : IdInv processed st) : IdInv (processed ++ [f]) (rawIndexStep st f) := by
  have hmain : IdInv (processed ++ [f]) (idStep st f) := by
    intro t
    by_cases hkey : ("id|" ++ t) = rawIndexScreenshotKey (rawFileID f)
    · have ht : t = goTrim (rawFileID f) := idKey_inj hkey
      by_cases hamb : st.2 (rawIndexScreenshotKey (rawFileID f)) = true
      · have hstep : idStep st f =
            (mapUpd st.1 (rawIndexScreenshotKey (rawFileID f)) none, st.2) := by
          simp [idStep, hamb]
        rw [hstep]
        refine ⟨fun _ => ?_, fun hfalse => ?_⟩
        · rw [hkey]
          exact mapUpd_same _ _ _
        · rw [hkey, hamb] at hfalse
          exact absurd hfalse (by simp)
      · have hamb' : st.2 (rawIndexScreenshotKey (rawFileID f)) = false := by
          simpa using hamb
        rcases hidx : st.1 (rawIndexScreenshotKey (rawFileID f)) with _ | ex
        · have hstep : idStep st f =
              (mapUpd st.1 (rawIndexScreenshotKey (rawFileID f)) (some f.path), st.2) := by
            simp [idStep, hamb', hidx]
          rw [hstep]
          refine ⟨fun htrue => ?_, fun _ => ?_⟩
          · rw [hkey] at htrue
            rw [hamb'] at htrue
            exact absurd htrue (by simp)
          · right
            refine ⟨f.path, by rw [hkey]; exact mapUpd_same _ _ _,
              ⟨f, by simp, rfl⟩, ?_⟩
            intro g hg htg
            rcases List.mem_append.mp hg with hg | hg
            · rcases (h t).2 (by rw [hkey]; exact hamb') with ⟨-, hnone⟩ | ⟨p, hp, -⟩
              · exact absurd htg (hnone g hg)
              · rw [hkey] at hp
                rw [hidx] at hp
                exact absurd hp (by simp)
            · rw [List.mem_singleton.mp hg]
        · by_cases hex : ex = f.path
          · have hstep : idStep st f = (st.1, st.2) := by
              simp [idStep, hamb', hidx, hex]
            rw [hstep]
            refine ⟨fun htrue => ?_, fun hfalse => ?_⟩
            · rw [hkey, hamb'] at htrue
              exact absurd htrue (by simp)
            · rcases (h t).2 hfalse with ⟨hnone, -⟩ | ⟨p, hp, ⟨w, hw, hwp⟩, huniq⟩
              · rw [hkey, hidx] at hnone
                exact absurd hnone (by simp)
              · right
                have hpex : p = ex := by
                  rw [hkey, hidx] at hp
                  exact (Option.some_inj.mp hp).symm
                refine ⟨p, hp, ⟨w, List.mem_append_left _ hw, hwp⟩, ?_⟩
                intro g hg htg
                rcases List.mem_append.mp hg with hg | hg
                · exact huniq g hg htg
                · rw [List.mem_singleton.mp hg, hpex, hex]
          · have hstep : idStep st f =
                (mapUpd st.1 (rawIndexScreenshotKey (rawFileID f)) none,
                  fun x => if x = rawIndexScreenshotKey (rawFileID f) then true
                    else st.2 x) := by
              simp [idStep, hamb', hidx, hex]
            rw [hstep]
            refine ⟨fun _ => ?_, fun hfalse => ?_⟩
            · rw [hkey]
              exact mapUpd_same _ _ _
            · exfalso
              simp only [hkey, if_pos rfl] at hfalse
              exact absurd hfalse (by simp)
    · have htne : t ≠ goTrim (rawFileID f) := fun hc => hkey (by rw [hc]; rfl)
      have hfne : goTrim (rawFileID f) ≠ t := fun hc => htne hc.symm
      have hsnd : (idStep st f).2 ("id|" ++ t) = st.2 ("id|" ++ t) :=
        (idStep_eval_other st f _ hkey).2
      have hfst : (idStep st f).1 ("id|" ++ t) = st.1 ("id|" ++ t) :=
        (idStep_eval_other st f _ hkey).1
      rw [hsnd, hfst]
      refine ⟨(h t).1, fun hfalse => ?_⟩
      rcases (h t).2 hfalse with ⟨hnone, hno⟩ | ⟨p, hp, ⟨w, hw, hwp⟩, huniq⟩
      · left
        refine ⟨hnone, fun g hg => ?_⟩
        rcases List.mem_append.mp hg with hg | hg
        · exact hno g hg
        · rw [List.mem_singleton.mp hg]
          exact hfne
      · right
        refine ⟨p, hp, ⟨w, List.mem_append_left _ hw, hwp⟩, ?_⟩
        intro g hg htg
        rcases List.mem_append.mp hg with hg | hg
        · exact huniq g hg htg
        · exact absurd htg (by rw [List.mem_singleton.mp hg]; exact hfne)
  intro t
  have hfst : (rawIndexStep st f).1 ("id|" ++ t) = (idStep st f).1 ("id|" ++ t) :=
    reviewOnlyStep_at_id _ f t
  have hsnd : (rawIndexStep st f).2 = (idStep st f).2 := rfl
  rw [show (rawIndexStep st f).2 ("id|" ++ t) = (idStep st f).2 ("id|" ++ t) from rfl]
  rw [hfst]
  exact hmain t

theorem rawIndex_foldl_inv (rest : List RawFile) :
    ∀ (processed : List RawFile) (st : (String → Option String) × (String → Bool)),
      IdInv processed st → IdInv (processed ++ rest) (rest.foldl rawIndexStep st) := by
  induction rest with
  | nil =>
      intro processed st h
      simpa using h
  | cons f rest ih =>
      intro processed st h
      have hstep := rawIndexStep_inv processed st f h
      have := ih (processed ++ [f]) (rawIndexStep st f) hstep
      simpa using this

theorem rawIndex_review_agree (files : List RawFile) :
    ∀ (st : (String → Option String) × (String → Bool)) (m : String → Option String),
      (∀ k, st.1 ("review|" ++ k) = m ("review|" ++ k)) →
      ∀ k, (files.foldl rawIndexStep st).1 ("review|" ++ k) =
        (files.foldl reviewOnlyStep m) ("review|" ++ k) := by
  induction files with
  | nil =>
      intro st m hagree k
      exact hagree k
  | cons f rest ih =>
      intro st m hagree k
      refine ih (rawIndexStep st f) (reviewOnlyStep m f) ?_ k
      intro k'
      show reviewOnlyStep (idStep st f).1 f ("review|" ++ k') =
        reviewOnlyStep m f ("review|" ++ k')
      have hagree' : ∀ k'', (idStep st f).1 ("review|" ++ k'') = m ("review|" ++ k'') :=
        fun k'' => (idStep_at_review st f k'').trans (hagree k'')
      have hrk : (idStep st f).1 (rawFileReviewKey f) = m (rawFileReviewKey f) := by
        have : rawFileReviewKey f =
            "review|" ++ makeReviewKey (inferLocaleAndDevice f.rel).1
              (inferLocaleAndDevice f.rel).2 (rawFileID f) := rfl
        rw [this]
        exact hagree' _
      unfold reviewOnlyStep
      rw [hrk]
      rcases m (rawFileReviewKey f) with _ | v
      · by_cases hk : ("review|" ++ k') = rawFileReviewKey f
        · show mapUpd (idStep st f).1 (rawFileReviewKey f) (some f.path) ("review|" ++ k')
            = mapUpd m (rawFileReviewKey f) (some f.path) ("review|" ++ k')
          rw [hk, mapUpd_same, mapUpd_same]
        · show mapUpd (idStep st f).1 (rawFileReviewKey f) (some f.path) ("review|" ++ k')
            = mapUpd m (rawFileReviewKey f) (some f.path) ("review|" ++ k')
          rw [mapUpd_other _ _ _ _ hk, mapUpd_other _ _ _ _ hk]
          exact hagree' k'
      · show (idStep st f).1 ("review|" ++ k') = m ("review|" ++ k')
        exact hagree' k'

/-- C9: if two distinct raw files (different paths) share the same trimmed
screenshot id, the built index has no bare-id mapping for that id — the
colliding mapping is evicted and stays evicted; and every review-key mapping
of the built index agrees with the index built by the review-key-only fold,
so bare-id collisions leave the review-key mappings unaffected. -/
theorem claim_C9_raw_index_eviction (files : List RawFile) (p q : RawFile)
    (hp : p ∈ files) (hq : q ∈ files) (hne : p.path ≠ q.path)
    (hid : goTrim (rawFileID p) = goTrim (rawFileID q)) :
    buildRawIndex files (rawIndexScreenshotKey (rawFileID p)) = none ∧
    ∀ k, buildRawIndex files ("review|" ++ k) =
      buildReviewOnlyIndex files ("review|" ++ k) := by
  constructor
  · have hinit : IdInv [] ((fun _ => none), (fun _ => false)) := by
      intro t
      exact ⟨by simp, fun _ => Or.inl ⟨rfl, by simp⟩⟩
    have hfin := rawIndex_foldl_inv files [] _ hinit
    simp only [List.nil_append] at hfin
    set t := goTrim (rawFileID p) with hdeft
    have hkeyp : rawIndexScreenshotKey (rawFileID p) = "id|" ++ t := rfl
    rw [hkeyp]
    show (files.foldl rawIndexStep ((fun _ => none), (fun _ => false))).1 ("id|" ++ t)
      = none
    rcases hambv : (files.foldl rawIndexStep ((fun _ => none), (fun _ => false))).2
        ("id|" ++ t) with _ | _
    · rcases (hfin t).2 hambv with ⟨hnone, -⟩ | ⟨r, hr, -, huniq⟩
      · exact hnone
      · exfalso
        have hpr := huniq p hp rfl
        have hqr := huniq q hq hid.symm
        exact hne (hpr.trans hqr.symm)
    · exact (hfin t).1 hambv
  · intro k
    exact rawIndex_review_agree files _ (fun _ => none) (fun _ => rfl) k

/-- C9 witness: two distinct raw files both named home.png in different
subdirectories collide on the bare id "home"; the theorem applied there gives
the evicted id mapping and one review-key agreement instance. -/
theorem claim_C9_raw_index_eviction_witness :
    buildRawIndex [⟨"/r/a/home.png", "a/home.png"⟩, ⟨"/r/b/home.png", "b/home.png"⟩]
        (rawIndexScreenshotKey
          (rawFileID (⟨"/r/a/home.png", "a/home.png"⟩ : RawFile))) = none ∧
    buildRawIndex [⟨"/r/a/home.png", "a/home.png"⟩, ⟨"/r/b/home.png", "b/home.png"⟩]
        ("review|" ++ makeReviewKey "" "a" "home") =
      buildReviewOnlyIndex
        [⟨"/r/a/home.png", "a/home.png"⟩, ⟨"/r/b/home.png", "b/home.png"⟩]
        ("review|" ++ makeReviewKey "" "a" "home") := by
  obtain ⟨h1, h2⟩ :=
    claim_C9_raw_index_eviction
      [⟨"/r/a/home.png", "a/home.png"⟩, ⟨"/r/b/home.png", "b/home.png"⟩]
      ⟨"/r/a/home.png", "a/home.png"⟩ ⟨"/r/b/home.png", "b/home.png"⟩
      (by simp) (by simp) (by decide) (by decide)
  exact ⟨h1, h2 (makeReviewKey "" "a" "home")⟩

theorem waitLoop_step_error (oracle : Nat → Except String Bool) (poll : Nat)
    (hp : 0 < poll) (deadline now : Nat) (e : String) (h : oracle now = .error e) :
    waitLoop oracle poll hp deadline now = ([now], .error e) := by
  rw [waitLoop]
  simp [h]

theorem waitLoop_step_match (oracle : Nat → Except String Bool) (poll : Nat)
    (hp : 0 < poll) (deadline now : Nat) (h : oracle now = .ok true) :
    waitLoop oracle poll hp deadline now = ([now], .ok ()) := by
  rw [waitLoop]
  simp [h]

theorem waitLoop_step_timeout (oracle : Nat → Except String Bool) (poll : Nat)
    (hp : 0 < poll) (deadline now : Nat) (h : oracle now = .ok false)
    (hd : deadline < now) :
    waitLoop oracle poll hp deadline now = ([now], .error (waitForTimeoutMsg deadline)) := by
  rw [waitLoop]
  simp [h, hd]

theorem waitLoop_step_continue (oracle : Nat → Except String Bool) (poll : Nat)
    (hp : 0 < poll) (deadline now : Nat) (h : oracle now = .ok false)
    (hd : ¬ deadline < now) :
    waitLoop oracle poll hp deadline now =
      (now :: (waitLoop oracle poll hp deadline (now + poll)).1,
        (waitLoop oracle poll hp deadline (now + poll)).2) := by
  rw [waitLoop]
  simp [h, hd]

theorem waitLoop_never_match (oracle : Nat → Except String Bool) (poll : Nat)
    (hp : 0 < poll) (deadline : Nat) (h : ∀ t, oracle t = .ok false) :
    ∀ (m now : Nat), deadline + 1 - now ≤ m →
      (waitLoop oracle poll hp deadline now).2 = .error (waitForTimeoutMsg deadline) ∧
      (waitLoop oracle poll hp deadline now).1.head? = some now ∧
      List.Chain' (fun a b => b = a + poll) (waitLoop oracle poll hp deadline now).1 ∧
      ∃ last, (waitLoop oracle poll hp deadline now).1.getLast? = some last ∧
        deadline < last := by
  intro m
  induction m with
  | zero =>
      intro now hm
      have hd : deadline < now := by omega
      rw [waitLoop_step_timeout oracle poll hp deadline now (h now) hd]
      exact ⟨rfl, rfl, by simp, now, rfl, hd⟩
  | succ m ih =>
      intro now hm
      by_cases hd : deadline < now
      · rw [waitLoop_step_timeout oracle poll hp deadline now (h now) hd]
        exact ⟨rfl, rfl, by simp, now, rfl, hd⟩
      · rw [waitLoop_step_continue oracle poll hp deadline now (h now) hd]
        obtain ⟨h2, hhead, hchain, last, hlast, hlt⟩ := ih (now + poll) (by omega)
        refine ⟨h2, rfl, ?_, last, ?_, hlt⟩
        · rw [List.chain'_cons']
          refine ⟨fun b hb => ?_, hchain⟩
          rw [Option.mem_def, hhead] at hb
          exact (Option.some_inj.mp hb).symm
        · cases hl : (waitLoop oracle poll hp deadline (now + poll)).1 with
          | nil =>
              rw [hl] at hhead
              exact absurd hhead (by simp)
          | cons a l' =>
              rw [hl] at hlast
              rw [List.getLast?_cons_cons]
              exact hlast

/-- C8: when the accessibility condition never matches, the wait_for loop
returns the timeout error naming the effective millisecond budget; the first
poll is at instant 0, consecutive polls are exactly one poll interval apart
(never more frequent), and the final poll instant — when the step returns —
is strictly past the effective timeout, so at least the configured timeout
has elapsed.  The effective values default to 15000 ms and 400 ms when the
step's fields are unset (zero) or negative, and are the step's own values
when positive. -/
theorem claim_C8_wait_for_timeout (timeoutMS pollIntervalMS : Int)
    (oracle : Nat → Except String Bool) (h : ∀ t, oracle t = .ok false) :
    (runWaitFor oracle timeoutMS pollIntervalMS).2 =
      .error (waitForTimeoutMsg (effTimeout timeoutMS)) ∧
    (runWaitFor oracle timeoutMS pollIntervalMS).1.head? = some 0 ∧
    List.Chain' (fun a b => b = a + effPoll pollIntervalMS)
      (runWaitFor oracle timeoutMS pollIntervalMS).1 ∧
    (∃ last, (runWaitFor oracle timeoutMS pollIntervalMS).1.getLast? = some last ∧
      effTimeout timeoutMS < last) ∧
    (timeoutMS ≤ 0 → effTimeout timeoutMS = 15000) ∧
    (pollIntervalMS ≤ 0 → effPoll pollIntervalMS = 400) ∧
    (0 < timeoutMS → effTimeout timeoutMS = timeoutMS.toNat) ∧
    (0 < pollIntervalMS → effPoll pollIntervalMS = pollIntervalMS.toNat) ∧
    waitForTimeoutMsg (effTimeout timeoutMS) =
      "wait_for timed out after " ++ toString (effTimeout timeoutMS) ++ "ms" := by
  obtain ⟨h2, hhead, hchain, last, hlast, hlt⟩ :=
    waitLoop_never_match oracle (effPoll pollIntervalMS)
      (by simp only [effPoll]; split <;> omega) (effTimeout timeoutMS) h
      (effTimeout timeoutMS + 1) 0 (by omega)
  refine ⟨h2, hhead, hchain, ⟨last, hlast, hlt⟩, ?_, ?_, ?_, ?_, rfl⟩
  · intro ht
    simp [effTimeout, ht]
  · intro hpz
    simp [effPoll, hpz]
  · intro ht
    rw [effTimeout, if_neg (by omega)]
  · intro hpz
    rw [effPoll, if_neg (by omega)]

/-- C8 witness: the theorem applied to a never-matching oracle and explicit
per-step overrides of 5 ms timeout and 2 ms poll interval. -/
theorem claim_C8_wait_for_timeout_witness :
    (runWaitFor (fun _ => .ok false) 5 2).2 =
      .error (waitForTimeoutMsg (effTimeout 5)) ∧
    (runWaitFor (fun _ => .ok false) 5 2).1.head? = some 0 ∧
    List.Chain' (fun a b => b = a + effPoll 2) (runWaitFor (fun _ => .ok false) 5 2).1 ∧
    (∃ last, (runWaitFor (fun _ => .ok false) 5 2).1.getLast? = some last ∧
      effTimeout 5 < last) ∧
    effTimeout 5 = 5 ∧ effPoll 2 = 2 := by
  obtain ⟨h1, h2, h3, h4, -, -, h7, h8, -⟩ :=
    claim_C8_wait_for_timeout 5 2 (fun _ => .ok false) (fun _ => rfl)
  exact ⟨h1, h2, h3, h4, by rw [h7 (by omega)]; rfl, by rw [h8 (by omega)]; rfl⟩

theorem waitLoop_error_at (oracle : Nat → Except String Bool) (poll : Nat)
    (hp : 0 < poll) (deadline : Nat) (e : String) :
    ∀ (j now : Nat),
      (∀ i, i < j → oracle (now + i * poll) = .ok false) →
      (∀ i, i < j → ¬ deadline < now + i * poll) →
      oracle (now + j * poll) = .error e →
      waitLoop oracle poll hp deadline now =
        ((List.range (j + 1)).map (fun i => now + i * poll), .error e) := by
  intro j
  induction j with
  | zero =>
      intro now hok hdl herr
      rw [waitLoop_step_error oracle poll hp deadline now e (by simpa using herr)]
      have hr : List.range 1 = [0] := rfl
      rw [hr]
      simp
  | succ j ih =>
      intro now hok hdl herr
      have h0 : oracle now = .ok false := by simpa using hok 0 (by omega)
      have hd0 : ¬ deadline < now := by simpa using hdl 0 (by omega)
      rw [waitLoop_step_continue oracle poll hp deadline now h0 hd0]
      have hok' : ∀ i, i < j → oracle (now + poll + i * poll) = .ok false := by
        intro i hi
        have := hok (i + 1) (by omega)
        rw [show now + (i + 1) * poll = now + poll + i * poll by ring] at this
        exact this
      have hdl' : ∀ i, i < j → ¬ deadline < now + poll + i * poll := by
        intro i hi
        have := hdl (i + 1) (by omega)
        rw [show now + (i + 1) * poll = now + poll + i * poll by ring] at this
        exact this
      have herr' : oracle (now + poll + j * poll) = .error e := by
        have := herr
        rw [show now + (j + 1) * poll = now + poll + j * poll by ring] at this
        exact this
      rw [ih (now + poll) hok' hdl' herr']
      have hlist : (List.range (j + 1 + 1)).map (fun i => now + i * poll) =
          now :: (List.range (j + 1)).map (fun i => now + poll + i * poll) := by
        rw [List.range_succ_eq_map, List.map_cons, List.map_map]
        refine congrArg₂ List.cons (by simp) (List.map_congr_left ?_)
        intro i hi
        show now + (i + 1) * poll = now + poll + i * poll
        ring
      rw [hlist]

/-- C10 (implicit): each wait_for iteration queries the backend before any
deadline comparison, so the accessibility query is issued at the iteration's
instant no matter how the deadline relates to it — in particular at least
once per step; and a failing query (a failed describe-ui invocation, or
output that does not parse as JSON) makes the whole step return that error
immediately after the failing poll, with no further polls. -/
theorem claim_C10_query_first_and_error_propagation (timeoutMS pollIntervalMS : Int)
    (oracle : Nat → Except String Bool) (describeUI : Nat → Except String String)
    (parse : String → Except String JValue) (step : PlanStep) :
    (∀ (poll deadline now : Nat) (hp : 0 < poll),
        (waitLoop oracle poll hp deadline now).1.head? = some now) ∧
    (runWaitFor oracle timeoutMS pollIntervalMS).1.head? = some 0 ∧
    (∀ (j : Nat) (e : String),
        (∀ i, i < j → oracle (i * effPoll pollIntervalMS) = .ok false) →
        (∀ i, i < j → i * effPoll pollIntervalMS ≤ effTimeout timeoutMS) →
        oracle (j * effPoll pollIntervalMS) = .error e →
        runWaitFor oracle timeoutMS pollIntervalMS =
          ((List.range (j + 1)).map (fun i => i * effPoll pollIntervalMS), .error e)) ∧
    (∀ t e, describeUI t = .error e →
        axeMatchesModel describeUI parse step t = .error e) ∧
    (∀ t out e, describeUI t = .ok out → parse out = .error e →
        axeMatchesModel describeUI parse step t =
          .error ("axe describe-ui: parse JSON: " ++ e)) := by
  have hhead : ∀ (poll deadline now : Nat) (hp : 0 < poll),
      (waitLoop oracle poll hp deadline now).1.head? = some now := by
    intro poll deadline now hp
    rcases ho : oracle now with e | b
    · rw [waitLoop_step_error oracle poll hp deadline now e ho]
      rfl
    · cases b
      · by_cases hd : deadline < now
        · rw [waitLoop_step_timeout oracle poll hp deadline now ho hd]
          rfl
        · rw [waitLoop_step_continue oracle poll hp deadline now ho hd]
          rfl
      · rw [waitLoop_step_match oracle poll hp deadline now ho]
        rfl
  refine ⟨hhead, hhead _ _ 0 _, ?_, ?_, ?_⟩
  · intro j e hok hdl herr
    have h :=
      waitLoop_error_at oracle (effPoll pollIntervalMS)
        (by simp only [effPoll]; split <;> omega) (effTimeout timeoutMS) e j 0
        (by intro i hi; simpa using hok i hi)
        (by intro i hi; have := hdl i hi; omega)
        (by simpa using herr)
    show waitLoop oracle (effPoll pollIntervalMS) _ (effTimeout timeoutMS) 0 = _
    rw [h]
    refine congrArg₂ Prod.mk (List.map_congr_left ?_) rfl
    intro i hi
    simp
  · intro t e h
    simp [axeMatchesModel, h]
  · intro t out e h1 h2
    simp [axeMatchesModel, h1, h2]

/-- C10 witness: the theorem applied to an oracle whose second poll (instant
2, with poll interval 2 and timeout 5) fails, and to concrete failing
describe-ui and parse collaborators. -/
theorem claim_C10_query_first_and_error_propagation_witness :
    runWaitFor (fun t => if t = 2 then .error "describe boke" else .ok false) 5 2 =
      ([0, 2], .error "describe boke") ∧
    axeMatchesModel (fun _ => .error "spawn failed") (fun _ => .ok JValue.null)
      { action := "wait_for" } 0 = .error "spawn failed" ∧
    axeMatchesModel (fun _ => .ok "not json") (fun _ => .error "bad syntax")
      { action := "wait_for" } 0 =
        .error ("axe describe-ui: parse JSON: " ++ "bad syntax") := by
  obtain ⟨-, -, herr, hdui, hparse⟩ :=
    claim_C10_query_first_and_error_propagation 5 2
      (fun t => if t = 2 then .error "describe boke" else .ok false)
      (fun _ => .error "spawn failed") (fun _ => .ok JValue.null)
      { action := "wait_for" }
  refine ⟨?_, hdui 0 "spawn failed" rfl, ?_⟩
  · have h := herr 1 "describe boke"
      (by
        intro i hi
        have hi0 : i = 0 := by omega
        subst hi0
        rfl)
      (by
        intro i hi
        have hi0 : i = 0 := by omega
        subst hi0
        decide)
      rfl
    rw [h]
    exact congrArg₂ Prod.mk (by decide) rfl
  · have h2 := claim_C10_query_first_and_error_propagation 5 2
      (fun t => if t = 2 then .error "describe boke" else .ok false)
      (fun _ => .ok "not json") (fun _ => .error "bad syntax")
      { action := "wait_for" }
    exact h2.2.2.2.2 0 "not json" "bad syntax" rfl rfl

theorem coStep_ownerInv {n : Nat} {s s' : CoState n} (h : OwnerInv s)
    (hs : CoStep s s') : OwnerInv s' := by
  cases hs with
  | entryBusy t hpc hrun =>
      constructor
      · intro hf
        have hf' : s.running = false := hf
        rw [hrun] at hf'
        exact absurd hf' (by simp)
      · intro _
        obtain ⟨w, hw, huniq⟩ := h.2 hrun
        have hwt : w ≠ t := by
          intro he
          rw [he, hpc] at hw
          exact absurd hw (by simp [isOwner])
        refine ⟨w, ?_, ?_⟩
        · show isOwner (if w = t then .done else s.pcs w) = true
          rw [if_neg hwt]
          exact hw
        · intro u hu
          have hu' : isOwner (if u = t then TriggerPC.done else s.pcs u) = true := hu
          by_cases hut : u = t
          · rw [if_pos hut] at hu'
            exact absurd hu' (by simp [isOwner])
          · rw [if_neg hut] at hu'
            exact huniq u hu'
  | entryClaim t hpc hrun =>
      constructor
      · intro hf
        exact absurd hf (by simp)
      · intro _
        have howner : isOwner (if t = t then TriggerPC.inRun else s.pcs t) = true := by
          simp [isOwner]
        refine ⟨t, howner, ?_⟩
        intro u hu
        have hu' : isOwner (if u = t then TriggerPC.inRun else s.pcs u) = true := hu
        by_cases hut : u = t
        · exact hut
        · rw [if_neg hut] at hu'
          rw [h.1 hrun u] at hu'
          exact absurd hu' (by simp)
  | finishRun t hpc =>
      have hrun : s.running = true := by
        cases hr : s.running
        · have := h.1 hr t
          rw [hpc] at this
          exact absurd this (by simp [isOwner])
        · rfl
      obtain ⟨w, hw, huniq⟩ := h.2 hrun
      have hwt : w = t := (huniq t (by rw [hpc]; rfl)).symm
      constructor
      · intro hf
        have hf' : s.running = false := hf
        rw [hrun] at hf'
        exact absurd hf' (by simp)
      · intro _
        have howner : isOwner (if t = t then TriggerPC.afterRun else s.pcs t) = true := by
          simp [isOwner]
        refine ⟨t, howner, ?_⟩
        intro u hu
        have hu' : isOwner (if u = t then TriggerPC.afterRun else s.pcs u) = true := hu
        by_cases hut : u = t
        · exact hut
        · rw [if_neg hut] at hu'
          exact (huniq u hu').trans hwt
  | checkPending t hpc hpend =>
      have hrun : s.running = true := by
        cases hr : s.running
        · have := h.1 hr t
          rw [hpc] at this
          exact absurd this (by simp [isOwner])
        · rfl
      obtain ⟨w, hw, huniq⟩ := h.2 hrun
      have hwt : w = t := (huniq t (by rw [hpc]; rfl)).symm
      constructor
      · intro hf
        have hf' : s.running = false := hf
        rw [hrun] at hf'
        exact absurd hf' (by simp)
      · intro _
        have howner : isOwner (if t = t then TriggerPC.inRun else s.pcs t) = true := by
          simp [isOwner]
        refine ⟨t, howner, ?_⟩
        intro u hu
        have hu' : isOwner (if u = t then TriggerPC.inRun else s.pcs u) = true := hu
        by_cases hut : u = t
        · exact hut
        · rw [if_neg hut] at hu'
          exact (huniq u hu').trans hwt
  | checkDone t hpc hpend =>
      constructor
      · intro _
        intro u
        show isOwner (if u = t then TriggerPC.done else s.pcs u) = false
        by_cases hut : u = t
        · rw [if_pos hut]
          rfl
        · rw [if_neg hut]
          cases hr : s.running
          · exact h.1 hr u
          · obtain ⟨w, hw, huniq⟩ := h.2 hr
            have hwt : w = t := (huniq t (by rw [hpc]; rfl)).symm
            cases ho : isOwner (s.pcs u)
            · rfl
            · exact absurd ((huniq u ho).trans hwt) hut
      · intro hf
        exact absurd hf (by simp)

theorem coReach_ownerInv {n : Nat} {s0 s : CoState n} (hreach : CoReach s0 s)
    (h : OwnerInv s0) : OwnerInv s := by
  induction hreach with
  | refl => exact h
  | tail hr hstep ih => exact coStep_ownerInv ih hstep

theorem coInit_ownerInv (m : Nat) : OwnerInv (coInit m) := by
  constructor
  · intro _ t
    rfl
  · intro hf
    exact absurd hf (by simp [coInit])

theorem coState_eq {n : Nat} {a b : CoState n} (h1 : a.running = b.running)
    (h2 : a.pending = b.pending) (h3 : ∀ u, a.pcs u = b.pcs u) (h4 : a.runs = b.runs) :
    a = b := by
  cases a
  cases b
  simp only [CoState.mk.injEq]
  exact ⟨h1, h2, funext h3, h4⟩

theorem reach_coFirstRun (n : Nat) : CoReach (coInit (n + 1)) (coFirstRun n) :=
  Relation.ReflTransGen.single
    (CoStep.entryClaim (s := coInit (n + 1)) (0 : Fin (n + 1)) rfl rfl)

theorem burstState_zero (n : Nat) : burstState n 0 = coFirstRun n := by
  refine coState_eq rfl rfl (fun u => ?_) rfl
  by_cases hu : u = 0
  · simp [burstState, coFirstRun, hu]
  · have hval0 : u.val ≠ 0 := fun h => hu (Fin.ext (by simpa using h))
    have hval : ¬ u.val ≤ 0 := by omega
    simp [burstState, coFirstRun, hu, hval, hval0]

theorem reach_burst (n : Nat) : ∀ k, k ≤ n → CoReach (coFirstRun n) (burstState n k) := by
  intro k
  induction k with
  | zero =>
      intro _
      rw [burstState_zero]
      exact Relation.ReflTransGen.refl
  | succ k ih =>
      intro hk1
      have hprev := ih (by omega)
      have hlt : k + 1 < n + 1 := by omega
      have hpc : (burstState n k).pcs ⟨k + 1, hlt⟩ = .entry := by
        have h0 : (⟨k + 1, hlt⟩ : Fin (n + 1)) ≠ 0 := by
          intro he
          have := congrArg Fin.val he
          simp at this
        have hgt : ¬ (⟨k + 1, hlt⟩ : Fin (n + 1)).val ≤ k := by
          show ¬ k + 1 ≤ k
          omega
        simp [burstState, h0, hgt]
      refine hprev.tail ?_
      have hstep := CoStep.entryBusy (s := burstState n k) ⟨k + 1, hlt⟩ hpc rfl
      convert hstep using 1
      have hne0 : (⟨k + 1, hlt⟩ : Fin (n + 1)) ≠ 0 := by
        intro he
        have := congrArg Fin.val he
        simp at this
      refine coState_eq rfl (by simp [burstState]) (fun u => ?_) rfl
      show (burstState n (k + 1)).pcs u =
        (if u = ⟨k + 1, hlt⟩ then TriggerPC.done else (burstState n k).pcs u)
      by_cases hut : u = ⟨k + 1, hlt⟩
      · have h0 : u ≠ 0 := by
          rw [hut]
          exact hne0
        have hle : u.val ≤ k + 1 := by
          rw [hut]
        simp [burstState, hut, h0, hle, hne0]
      · by_cases hu0 : u = 0
        · have h0ne : ¬ (0 : Fin (n + 1)) = ⟨k + 1, hlt⟩ := fun he => hne0 he.symm
          simp [burstState, hut, hu0, h0ne]
        · have hvne : u.val ≠ k + 1 := by
            intro he
            exact hut (Fin.ext (by simpa using he))
          by_cases hc : u.val ≤ k
          · have hc1 : u.val ≤ k + 1 := by omega
            simp [burstState, hut, hu0, hc, hc1]
          · have hc1 : ¬ u.val ≤ k + 1 := by omega
            simp [burstState, hut, hu0, hc, hc1]

theorem burstState_full (n : Nat) (hn : 1 ≤ n) : burstState n n = coAfterBurst n := by
  refine coState_eq rfl (by simp [burstState, coAfterBurst]; omega) (fun u => ?_) rfl
  by_cases hu : u = 0
  · simp [burstState, coAfterBurst, hu]
  · have hle : u.val ≤ n := by omega
    simp [burstState, coAfterBurst, hu, hle]

theorem coStep_afterBurstInv (n : Nat) {s s' : CoState (n + 1)}
    (h : AfterBurstInv n s) (hs : CoStep s s') : AfterBurstInv n s' := by
  obtain ⟨hdone, hcase⟩ := h
  cases hs with
  | entryBusy t hpc hrun =>
      exfalso
      by_cases ht : t = 0
      · subst ht
        rcases hcase with ⟨h1, -⟩ | ⟨h1, -⟩ | ⟨h1, -⟩ | ⟨h1, -⟩ | ⟨h1, -⟩ <;>
          · rw [hpc] at h1
            simp at h1
      · have := hdone t ht
        rw [this] at hpc
        simp at hpc
  | entryClaim t hpc hrun =>
      exfalso
      by_cases ht : t = 0
      · subst ht
        rcases hcase with ⟨h1, -⟩ | ⟨h1, -⟩ | ⟨h1, -⟩ | ⟨h1, -⟩ | ⟨h1, -⟩ <;>
          · rw [hpc] at h1
            simp at h1
      · have := hdone t ht
        rw [this] at hpc
        simp at hpc
  | finishRun t hpc =>
      by_cases ht : t = 0
      · subst ht
        have hdone' : ∀ u : Fin (n + 1), u ≠ 0 →
            (if u = (0 : Fin (n + 1)) then TriggerPC.afterRun else s.pcs u) = .done := by
          intro u hu
          rw [if_neg hu]
          exact hdone u hu
        have hpc0 : (if (0 : Fin (n + 1)) = (0 : Fin (n + 1)) then TriggerPC.afterRun
            else s.pcs 0) = .afterRun := by simp
        rcases hcase with ⟨h1, h2, h3, h4⟩ | ⟨h1, -⟩ | ⟨h1, h2, h3, h4⟩ | ⟨h1, -⟩ | ⟨h1, -⟩
        · exact ⟨hdone', Or.inr (Or.inl ⟨hpc0, h2, h3, h4⟩)⟩
        · rw [hpc] at h1
          simp at h1
        · exact ⟨hdone', Or.inr (Or.inr (Or.inr (Or.inl ⟨hpc0, h2, h3, h4⟩)))⟩
        · rw [hpc] at h1
          simp at h1
        · rw [hpc] at h1
          simp at h1
      · exfalso
        have := hdone t ht
        rw [this] at hpc
        simp at hpc
  | checkPending t hpc hpend =>
      by_cases ht : t = 0
      · subst ht
        have hdone' : ∀ u : Fin (n + 1), u ≠ 0 →
            (if u = (0 : Fin (n + 1)) then TriggerPC.inRun else s.pcs u) = .done := by
          intro u hu
          rw [if_neg hu]
          exact hdone u hu
        have hpc0 : (if (0 : Fin (n + 1)) = (0 : Fin (n + 1)) then TriggerPC.inRun
            else s.pcs 0) = .inRun := by simp
        rcases hcase with ⟨h1, -⟩ | ⟨h1, h2, h3, h4⟩ | ⟨h1, -⟩ | ⟨-, h2, -⟩ | ⟨h1, -⟩
        · rw [hpc] at h1
          simp at h1
        · refine ⟨hdone', Or.inr (Or.inr (Or.inl ⟨hpc0, rfl, by rw [h3], h4⟩))⟩
        · rw [hpc] at h1
          simp at h1
        · rw [hpend] at h2
          simp at h2
        · rw [hpc] at h1
          simp at h1
      · exfalso
        have := hdone t ht
        rw [this] at hpc
        simp at hpc
  | checkDone t hpc hpend =>
      by_cases ht : t = 0
      · subst ht
        have hdone' : ∀ u : Fin (n + 1), u ≠ 0 →
            (if u = (0 : Fin (n + 1)) then TriggerPC.done else s.pcs u) = .done := by
          intro u hu
          rw [if_neg hu]
          exact hdone u hu
        have hpc0 : (if (0 : Fin (n + 1)) = (0 : Fin (n + 1)) then TriggerPC.done
            else s.pcs 0) = .done := by simp
        rcases hcase with ⟨h1, -⟩ | ⟨-, h2, -⟩ | ⟨h1, -⟩ | ⟨-, -, h3, -⟩ | ⟨h1, -⟩
        · rw [hpc] at h1
          simp at h1
        · rw [hpend] at h2
          simp at h2
        · rw [hpc] at h1
          simp at h1
        · exact ⟨hdone', Or.inr (Or.inr (Or.inr (Or.inr ⟨hpc0, hpend, h3, rfl⟩)))⟩
        · rw [hpc] at h1
          simp at h1
      · exfalso
        have := hdone t ht
        rw [this] at hpc
        simp at hpc

theorem afterBurstInv_init (n : Nat) : AfterBurstInv n (coAfterBurst n) := by
  constructor
  · intro u hu
    simp [coAfterBurst, hu]
  · exact Or.inl ⟨by simp [coAfterBurst], rfl, rfl, rfl⟩

theorem afterBurstInv_reach (n : Nat) {s : CoState (n + 1)}
    (hreach : CoReach (coAfterBurst n) s) : AfterBurstInv n s := by
  induction hreach with
  | refl => exact afterBurstInv_init n
  | tail hr hstep ih => exact coStep_afterBurstInv n ih hstep

/-- C4: the generation coalescer, modelled from the spec as a transition
system (its implementation is not among the provided sources, only its
test).  In every execution from the idle protocol with any number of
`Trigger` threads, at most one thread is ever executing the rebuild function
(serialization); the coalescer can reach the state where the first run is in
flight, any burst of n further `Trigger` calls completing during that run
collapses into the single pending flag without starting a run (the run count
stays 1 through the burst), and every completed continuation from the
post-burst state ends quiescent with exactly 2 total runs and the running
flag released — one follow-up run regardless of the burst size. -/
theorem claim_C4_coalescer_serial_and_coalesced (n : Nat) (hn : 1 ≤ n) :
    (∀ (m : Nat) (s : CoState m), CoReach (coInit m) s →
        ∀ t u, s.pcs t = .inRun → s.pcs u = .inRun → t = u) ∧
    CoReach (coInit (n + 1)) (coFirstRun n) ∧
    CoReach (coFirstRun n) (coAfterBurst n) ∧
    (coFirstRun n).runs = 1 ∧ (coAfterBurst n).runs = 1 ∧
    (∀ s : CoState (n + 1), CoReach (coAfterBurst n) s → CoQuiescent s →
        s.runs = 2 ∧ s.running = false) := by
  refine ⟨?_, reach_coFirstRun n, ?_, rfl, rfl, ?_⟩
  · intro m s hreach t u ht hu
    have hinv := coReach_ownerInv hreach (coInit_ownerInv m)
    cases hr : s.running
    · have := hinv.1 hr t
      rw [ht] at this
      exact absurd this (by simp [isOwner])
    · obtain ⟨w, hw, huniq⟩ := hinv.2 hr
      have h1 : t = w := huniq t (by rw [ht]; rfl)
      have h2 : u = w := huniq u (by rw [hu]; rfl)
      rw [h1, h2]
  · rw [← burstState_full n hn]
    exact reach_burst n n (Nat.le_refl n)
  · intro s hreach hq
    obtain ⟨-, hcase⟩ := afterBurstInv_reach n hreach
    have h0 := hq 0
    rcases hcase with ⟨h1, -⟩ | ⟨h1, -⟩ | ⟨h1, -⟩ | ⟨h1, -⟩ | ⟨-, -, h3, h4⟩
    · rw [h0] at h1
      exact absurd h1 (by simp)
    · rw [h0] at h1
      exact absurd h1 (by simp)
    · rw [h0] at h1
      exact absurd h1 (by simp)
    · rw [h0] at h1
      exact absurd h1 (by simp)
    · exact ⟨h3, h4⟩

/-- C4 witness: the theorem at the test's burst size — one initial `Trigger`
plus three `Trigger` calls arriving during the first run give exactly 2 total
runs, never concurrent. -/
theorem claim_C4_coalescer_serial_and_coalesced_witness :
    (∀ (m : Nat) (s : CoState m), CoReach (coInit m) s →
        ∀ t u, s.pcs t = .inRun → s.pcs u = .inRun → t = u) ∧
    CoReach (coInit 4) (coFirstRun 3) ∧
    CoReach (coFirstRun 3) (coAfterBurst 3) ∧
    (coFirstRun 3).runs = 1 ∧ (coAfterBurst 3).runs = 1 ∧
    (∀ s : CoState 4, CoReach (coAfterBurst 3) s → CoQuiescent s →
        s.runs = 2 ∧ s.running = false) :=
  claim_C4_coalescer_serial_and_coalesced 3 (by omega)

end ASCShots
